import Mathlib

/-!
Verification of the `bpo` recursive schema engine (`bpo/datamodel/model.py`,
`bpo/datamodel/types.py`, `bpo/datamodel/utils.py`).

The engine is embedded shallowly:

* `Ty` is the grammar of declared field types actually handled by
  `Model._parse_value`: `type(None)`, plain scalar classes (`int`, `str`),
  `enum.Enum` subclasses, nested `Model` subclasses, `Union[...]`
  (which covers `Optional`), and `List[...]`.
* `Val` is the universe of Python runtime values the engine touches: `None`,
  `int`, `str`, enum members, plain `dict` documents, constructed model
  instances (dataclass nodes, carrying their `_parent_path`), and `list`s.
* Raising Python code is embedded with `Except PyErr`; a caught-and-rewrapped
  exception keeps its cause, as `raise ... from e` does.

Model classes and enum classes are identified by a numeric tag (`cls : Nat`):
two dataclass instances compare equal only when their classes coincide, and
`SomeEnum(value)` only accepts members of that same enum class.
-/

/-- Declared type expressions, as `Model._parse_value` dispatches on them:
`noneT` is `type(None)`; `intT`/`strT` are the plain scalar classes used by
the repository's schemas; `enumT cls values` is an `enum.Enum` subclass whose
members carry the underlying values `values`; `modelT cls fields` is a nested
`Model` dataclass with its ordered `__annotations__`; `unionT` is
`Union[...]` (first-match); `listT` is `List[...]`. -/
inductive Ty where
  | noneT
  | intT
  | strT
  | enumT (cls : Nat) (values : List Int)
  | modelT (cls : Nat) (fields : List (String × Ty))
  | unionT (args : List Ty)
  | listT (elem : Ty)

/-- Python runtime values seen by the engine.  `node cls parentPath fields`
is a constructed dataclass instance: `cls` its class, `parentPath` the
`_parent_path` attribute assigned by `Model.load` (class default `""`),
`fields` its declared attributes in declaration order.  `enumMember cls v`
is the member of enum class `cls` whose `.value` is `v`. -/
inductive Val where
  | none
  | vint (n : Int)
  | vstr (s : String)
  | enumMember (cls : Nat) (value : Int)
  | dict (kvs : List (String × Val))
  | node (cls : Nat) (parentPath : String) (fields : List (String × Val))
  | vlist (elems : List Val)

/-- Python exceptions the engine raises or wraps.  `modelParsing` is
`ModelParsingException(attr_path, type, attr_value)` raised `from` its cause;
`modelValidation` is `ModelValidationException(attr_path, validation_func)`,
the validator identified by its numeric tag. -/
inductive PyErr where
  | valueError (msg : String)
  | typeError (msg : String)
  | attributeError (msg : String)
  | modelParsing (attrPath : String) (ty : Ty) (attrValue : Val) (cause : PyErr)
  | modelValidation (attrPath : String) (validatorId : Nat) (cause : PyErr)

/-- Decimal digit accumulator for `pyIntLit`; `Option.none` means the string
seen so far is not a valid integer literal. -/
def decDigits : List Char → Option Nat → Option Nat
  | [], acc => acc
  | c :: rest, acc =>
      if c.isDigit then
        decDigits rest (some ((acc.getD 0) * 10 + (c.toNat - 48)))
      else Option.none

/-- The decimal integer literals accepted by Python's `int(str)`: an optional
leading minus sign followed by at least one digit.  (Python additionally
strips whitespace and accepts `+` and `_` separators; those literals are not
exercised by any claim.) -/
def pyIntLit (s : String) : Option Int :=
  match s.data with
  | '-' :: rest => (decDigits rest Option.none).map (fun n => -(n : Int))
  | ds => (decDigits ds Option.none).map (fun n => (n : Int))

/-- `int(value)`: identity on ints, literal parsing on strings (raising
`ValueError` on a non-numeric literal), `TypeError` on other inputs. -/
def coerceInt : Val → Except PyErr Int
  | .vint n => .ok n
  | .vstr s =>
      match pyIntLit s with
      | some n => .ok n
      | Option.none => .error (.valueError "invalid literal for int()")
  | _ => .error (.typeError "int() argument must be a string or a number")

mutual
/-- `str(value)`: identity on strings, decimal rendering of ints, `"None"`
for `None`.  Composite values also stringify in Python; their exact repr text
is abstracted structurally here (no claim depends on it). -/
def pyStr : Val → String
  | .vstr s => s
  | .vint n => toString n
  | .none => "None"
  | .enumMember c v => "Enum" ++ toString c ++ "." ++ toString v
  | .dict kvs => "\x7b" ++ pyStrFields kvs ++ "\x7d"
  | .node c _ fs => "Node" ++ toString c ++ "(" ++ pyStrFields fs ++ ")"
  | .vlist es => "[" ++ pyStrElems es ++ "]"

def pyStrFields : List (String × Val) → String
  | [] => ""
  | (k, v) :: rest => k ++ ": " ++ pyStr v ++ ", " ++ pyStrFields rest

def pyStrElems : List Val → String
  | [] => ""
  | v :: rest => pyStr v ++ ", " ++ pyStrElems rest
end

/-- `EnumCls(value)`: returns the member when `value` is already a member of
this same class, or when `value` equals some member's underlying `.value`;
otherwise raises `ValueError`. -/
def enumCoerce (cls : Nat) (values : List Int) : Val → Except PyErr Val
  | .enumMember c w =>
      if c = cls ∧ w ∈ values then .ok (.enumMember cls w)
      else .error (.valueError "is not a valid member")
  | .vint w =>
      if w ∈ values then .ok (.enumMember cls w)
      else .error (.valueError "is not a valid member")
  | _ => .error (.valueError "is not a valid member")

mutual
/-- `Model._parse_value(value, annotation, attribute_path)`.  Mirrors the
source's dispatch order: the `annotation is type(None) or value is None`
test first, then `inspect.isclass` (scalar / enum / nested-model classes),
then `Union`, then `list`.  Returns `none` where Python returns `None`
(including the implicit fall-through when every `Union` arm yields `None`). -/
def parse_value (ty : Ty) (value : Val) (attribute_path : String) :
    Except PyErr (Option Val) :=
  match ty, value with
  | .noneT, _ => .ok Option.none
  | _, .none => .ok Option.none
  | .intT, _ => (coerceInt value).map (fun n => some (.vint n))
  | .strT, _ => .ok (some (.vstr (pyStr value)))
  | .enumT c vals, _ => (enumCoerce c vals value).map some
  | .modelT c fs, _ => (load c fs value attribute_path).map some
  | .unionT args, _ => parseUnionArgs args value attribute_path
  | .listT e, _ =>
      match value with
      | .vlist vs => (parseListElems e vs attribute_path 0).map
          (fun l => some (.vlist l))
      | .vstr s => (parseListElems e (s.data.map (fun ch => .vstr (String.mk [ch])))
          attribute_path 0).map (fun l => some (.vlist l))
      | .dict kvs => (parseListElems e (kvs.map (fun kv => .vstr kv.1))
          attribute_path 0).map (fun l => some (.vlist l))
      | _ => .error (.typeError "object is not iterable")

/-- The `Union` arm of `_parse_value`: try each alternative in declared
order, returning the first parse that is not `None`; exceptions propagate. -/
def parseUnionArgs (args : List Ty) (value : Val) (attribute_path : String) :
    Except PyErr (Option Val) :=
  match args with
  | [] => .ok Option.none
  | a :: rest => do
      let r ← parse_value a value attribute_path
      match r with
      | some pv => .ok (some pv)
      | Option.none => parseUnionArgs rest value attribute_path

/-- The `list` arm of `_parse_value`: each element is parsed with its index
appended to the attribute path (`path.0`, `path.1`, ...); a `None` parse is
appended as `None`; exceptions propagate. -/
def parseListElems (e : Ty) (vs : List Val) (attribute_path : String)
    (index : Nat) : Except PyErr (List Val) :=
  match vs with
  | [] => .ok []
  | v :: rest => do
      let r ← parse_value e v (attribute_path ++ "." ++ toString index)
      let rs ← parseListElems e rest attribute_path (index + 1)
      .ok (r.getD .none :: rs)

/-- `Model.load(input_dict, parent_path="root")` for the class `cls` with
declared fields `fs`: parse every declared field, construct the node in one
step, and record `_parent_path = parent_path`.  (The parent-reference
backfill on child nodes is represented structurally: see `get_root_ref`.) -/
def load (cls : Nat) (fs : List (String × Ty)) (input : Val)
    (parent_path : String) : Except PyErr Val :=
  (loadFields fs input parent_path).map (fun pf => .node cls parent_path pf)

/-- The field loop of `Model.load`: for each declared attribute, read
`input_dict.get(attribute)` (raising `AttributeError` on a non-dict input,
exactly when at least one field forces the `.get` call), parse it at
`parent_path.attribute`, and wrap any failure in `ModelParsingException`
carrying that field path, the declared type and the raw value. -/
def loadFields : List (String × Ty) → Val → String →
    Except PyErr (List (String × Val))
  | [], _, _ => .ok []
  | (name, ty) :: rest, input, parent_path =>
      match input with
      | .dict kvs =>
          let attrValue := ((kvs.lookup name).getD .none)
          let attributePath := parent_path ++ "." ++ name
          match parse_value ty attrValue attributePath with
          | .error e =>
              .error (.modelParsing attributePath ty attrValue e)
          | .ok r => do
              let rs ← loadFields rest input parent_path
              .ok ((name, r.getD .none) :: rs)
      | _ => .error (.attributeError "object has no attribute get")
end

section ParserSanity

example : parse_value .intT (.vstr "5") "p" = .ok (some (.vint 5)) := by
  simp only [parse_value]
  rfl

example :
    parse_value (.unionT [.intT, .strT]) (.vstr "5") "p"
      = .ok (some (.vint 5)) := by
  simp only [parse_value, parseUnionArgs]
  rfl

example :
    parse_value (.unionT [.strT, .intT]) (.vstr "5") "p"
      = .ok (some (.vstr "5")) := by
  simp only [parse_value, parseUnionArgs]
  rfl

example :
    load 0 [("xs", .listT .intT)] (.dict [("xs", .vlist [.vstr "a"])]) "root"
      = .error (.modelParsing "root.xs" (.listT .intT) (.vlist [.vstr "a"])
          (.valueError "invalid literal for int()")) := by
  simp [load, loadFields, parse_value, parseListElems, List.lookup]
  rfl

end ParserSanity

mutual
/-- `dataclasses.asdict`: recursively convert dataclass instances to fresh
dicts, mapping lists element-wise and dict values key-wise; all other values
(ints, strings, `None`, enum members) pass through. -/
def asdictVal : Val → Val
  | .node _ _ fields => .dict (asdictFields fields)
  | .dict kvs => .dict (asdictFields kvs)
  | .vlist es => .vlist (asdictElems es)
  | v => v

def asdictFields : List (String × Val) → List (String × Val)
  | [] => []
  | (k, v) :: rest => (k, asdictVal v) :: asdictFields rest

def asdictElems : List Val → List Val
  | [] => []
  | v :: rest => asdictVal v :: asdictElems rest
end

mutual
/-- One entry of a dict reached by the normalization walk in `Model.dump`:
an `enum.Enum` value is replaced by its underlying `.value`; a dict value is
pushed on the stack (hence fully processed); a list value has exactly its
dict elements pushed.  Everything else is left untouched — in particular enum
members *inside* a list, and anything nested below a list inside a list, are
never visited by the walk. -/
def normEntry : Val → Val
  | .enumMember _ w => .vint w
  | .dict kvs => .dict (normEntries kvs)
  | .vlist es => .vlist (normElems es)
  | v => v

def normEntries : List (String × Val) → List (String × Val)
  | [] => []
  | (k, v) :: rest => (k, normEntry v) :: normEntries rest

def normElems : List Val → List Val
  | [] => []
  | v :: rest =>
      (match v with
        | .dict kvs => .dict (normEntries kvs)
        | w => w) :: normElems rest
end

/-- `Model.dump()`: `asdict(self)` followed by the stack-based enum
normalization walk seeded with the top-level dict. -/
def dump (v : Val) : Val :=
  match asdictVal v with
  | .dict kvs => .dict (normEntries kvs)
  | w => w

mutual
/-- Python `==` on engine values as the round-trip claim uses it: dataclass
equality compares the class and every declared field in order but *not* the
instance attribute `_parent_path`, which `__eq__` of a dataclass ignores.
(On dicts Python compares unordered mappings; the ordered comparison used
here is sound for the values the engine builds and only ever strengthens the
round-trip statement.) -/
def fieldEq : Val → Val → Bool
  | .none, .none => true
  | .vint a, .vint b => a == b
  | .vstr a, .vstr b => a == b
  | .enumMember c v, .enumMember c' v' => c == c' && v == v'
  | .dict a, .dict b => fieldEqFields a b
  | .node c _ a, .node c' _ b => c == c' && fieldEqFields a b
  | .vlist a, .vlist b => fieldEqElems a b
  | _, _ => false

def fieldEqFields : List (String × Val) → List (String × Val) → Bool
  | [], [] => true
  | (k, v) :: rest, (k', v') :: rest' =>
      k == k' && fieldEq v v' && fieldEqFields rest rest'
  | _, _ => false

def fieldEqElems : List Val → List Val → Bool
  | [], [] => true
  | v :: rest, v' :: rest' => fieldEq v v' && fieldEqElems rest rest'
  | _, _ => false
end

/-- `_parent_path` as validation reads it: the attribute `Model.load` stores
on nodes it builds, with the `BaseModel` class default `""` otherwise. -/
def parentPathOf : Val → String
  | .node _ p _ => p
  | _ => ""

/-- `bpo.datamodel.utils.get_attr_path(model, attr)`: split the node's
`_parent_path` on dots and re-join (`.`-join, over the character lists) with
the attribute appended. -/
def get_attr_path (model : Val) (attr : String) : String :=
  String.mk ([Char.ofNat 46].intercalate
    ((parentPathOf model).data.splitOn (Char.ofNat 46) ++ [attr.data]))

/-- A contextual argument injected into a validator by
`Model._get_extra_validate_args`. -/
inductive ExtraArg where
  | parentPath (s : String)
  | attrPath (s : String)
  | rootRef (v : Val)
  | parentRef (v : Val)

/-- One registered validator function: `vid` identifies the Python callable
(`__name__`), `extraParams` are its declared parameters after the leading
value parameter (`inspect.signature`), and `run` is its behaviour on the
field value plus the injected keyword arguments — `Except Unit` models the
function raising. -/
structure ValidatorFn where
  vid : Nat
  extraParams : List String
  run : Val → List (String × ExtraArg) → Except PyErr (Option Nat)

/-- One stored registration: `dict(func=validator_func, when=when)`; the
`when` predicate is stored but never evaluated, so it is opaque metadata. -/
structure VEntry where
  func : ValidatorFn
  when : Option Nat

/-- The class-level registries of `BaseModel`: `_validators` and
`_critical_validators`, each `None` until the first registration of its tier
creates the `defaultdict`. -/
structure Registry where
  validators : Option (List (String × List VEntry))
  criticalValidators : Option (List (String × List VEntry))

/-- Append to an ordered `defaultdict(list)`: extend the list at an existing
key, or insert the key at the end (dict insertion order). -/
def appendAt (m : List (String × List VEntry)) (field : String)
    (e : VEntry) : List (String × List VEntry) :=
  match m with
  | [] => [(field, [e])]
  | (k, es) :: rest =>
      if k = field then (k, es ++ [e]) :: rest
      else (k, es) :: appendAt rest field e

/-- `BaseModel.add_validator(field, validator_func, critical, when)`:
initialize the tier's `defaultdict` if still `None`, then append the entry
under `field`. -/
def add_validator (reg : Registry) (field : String) (func : ValidatorFn)
    (critical : Bool) (when : Option Nat) : Registry :=
  if critical then
    let m := appendAt (reg.criticalValidators.getD []) field ⟨func, when⟩
    { reg with criticalValidators := some m }
  else
    let m := appendAt (reg.validators.getD []) field ⟨func, when⟩
    { reg with validators := some m }

/-- `get_all_properties` inside `bpo.datamodel.utils.validate`: the model's
`__annotations__` keys plus its public non-callable class members.  The
repository's schema classes declare no public non-callable class attributes,
so the set is exactly the declared field names. -/
def get_all_properties (fs : List (String × Ty)) : List String :=
  fs.map Prod.fst

/-- The decorator `bpo.datamodel.utils.validate(model, field, critical,
when)` applied to a callable: it first calls `add_validator` and only then
checks the field name, raising `AttributeError` if the field is not among
the model's properties.  The returned pair is (registry state after the
call, the exception raised if any). -/
def validateDecorator (fs : List (String × Ty)) (field : String)
    (func : ValidatorFn) (critical : Bool) (when : Option Nat)
    (reg : Registry) : Registry × Option PyErr :=
  let reg' := add_validator reg field func critical when
  if field ∈ get_all_properties fs then (reg', Option.none)
  else (reg', some (.attributeError "Field does not exist on model"))

/-- `getattr(node, field)`: look up a declared attribute on a dataclass
instance, raising `AttributeError` when absent. -/
def getattrF (self : Val) (field : String) : Except PyErr Val :=
  match self with
  | .node _ _ fields =>
      match fields.lookup field with
      | some v => .ok v
      | Option.none => .error (.attributeError field)
  | _ => .error (.attributeError field)

/-- `bpo.datamodel.utils.get_root_ref(node)`: follow `_parent_ref` until it
is empty.  The cyclic `_parent_ref` pointers that `Model.load` backfills are
represented by the ancestor chain (nearest parent first) that the traversal
reconstructs while walking the tree it loaded; for a tree built by `load`
this chain is finite and ends at the loaded root. -/
def get_root_ref (self : Val) (ancestors : List Val) : Val :=
  match ancestors with
  | [] => self
  | p :: rest => get_root_ref p rest

/-- `Model._get_extra_validate_args(validator_func, field)`: scan the
validator's declared parameter names after the first and supply exactly the
recognized ones — `parent_path`, `attr_path` (the node's `_parent_path` plus
`.field`), `root_ref`, `parent_ref` — in parameter order. -/
def get_extra_validate_args (self : Val) (ancestors : List Val)
    (params : List String) (field : String) : List (String × ExtraArg) :=
  match params with
  | [] => []
  | p :: rest =>
      let tail := get_extra_validate_args self ancestors rest field
      if p = "parent_path" then (p, .parentPath (parentPathOf self)) :: tail
      else if p = "attr_path" then
        (p, .attrPath (parentPathOf self ++ "." ++ field)) :: tail
      else if p = "root_ref" then
        (p, .rootRef (get_root_ref self ancestors)) :: tail
      else if p = "parent_ref" then (p, .parentRef self) :: tail
      else tail

/-- The children `Model._bfs` appends to its queue when visiting a node: for
each declared field in order, the field's value if it is a `BaseModel`
instance, or the `BaseModel` elements of a list-valued field. -/
def childrenFields : List (String × Val) → List Val
  | [] => []
  | (_, v) :: rest =>
      (match v with
        | .node c p fs => [Val.node c p fs]
        | .vlist es => es.filter (fun e => match e with
            | .node _ _ _ => true
            | _ => false)
        | _ => []) ++ childrenFields rest

/-- All `BaseModel` children of a node in declaration order. -/
def childrenOf : Val → List Val
  | .node _ _ fields => childrenFields fields
  | _ => []

mutual
/-- Structural size of a value; the termination measure of `bfs`. -/
def valSize : Val → Nat
  | .none | .vint _ | .vstr _ | .enumMember _ _ => 1
  | .dict kvs => 1 + fieldsSize kvs
  | .node _ _ fs => 1 + fieldsSize fs
  | .vlist es => 1 + elemsSize es

/-- Structural size of a field list. -/
def fieldsSize : List (String × Val) → Nat
  | [] => 0
  | (_, v) :: rest => 1 + valSize v + fieldsSize rest

/-- Structural size of an element list. -/
def elemsSize : List Val → Nat
  | [] => 0
  | v :: rest => 1 + valSize v + elemsSize rest
end

/-- Sum of the sizes of the nodes sitting in the breadth-first queue. -/
def queueSize (q : List (Val × List Val)) : Nat :=
  (q.map (fun c => valSize c.1)).sum

theorem filter_nodes_size (es : List Val) :
    ((es.filter (fun e => match e with
      | .node _ _ _ => true
      | _ => false)).map valSize).sum ≤ elemsSize es := by
  induction es with
  | nil => simp [elemsSize]
  | cons e rest ih =>
      by_cases he : (match e with
        | .node _ _ _ => true
        | _ => false) = true
      · simp only [List.filter_cons, he, if_pos, List.map_cons, List.sum_cons,
          elemsSize]
        omega
      · simp only [List.filter_cons, he, Bool.false_eq_true, if_neg,
          not_false_iff, elemsSize]
        omega

theorem childrenFields_size (fs : List (String × Val)) :
    ((childrenFields fs).map valSize).sum ≤ fieldsSize fs := by
  induction fs with
  | nil => simp [childrenFields, fieldsSize]
  | cons kv rest ih =>
      obtain ⟨k, v⟩ := kv
      simp only [childrenFields, List.map_append, List.sum_append, fieldsSize]
      have hv : ((match v with
          | Val.node c p nfs => [Val.node c p nfs]
          | Val.vlist es => es.filter (fun e => match e with
              | Val.node _ _ _ => true
              | _ => false)
          | _ => ([] : List Val)).map valSize).sum ≤ valSize v := by
        match v with
        | .none | .vint _ | .vstr _ | .enumMember _ _ | .dict _ => simp [valSize]
        | .node c p nfs => simp [valSize]
        | .vlist es =>
            have := filter_nodes_size es
            simp only [valSize]
            omega
      omega

theorem childrenOf_size (n : Val) :
    ((childrenOf n).map valSize).sum < valSize n := by
  match n with
  | .none | .vint _ | .vstr _ | .enumMember _ _ | .dict _ | .vlist _ =>
      simp [childrenOf, valSize]
  | .node c p fs =>
      have h := childrenFields_size fs
      simp only [childrenOf, valSize]
      omega

/-- `Model._bfs()`: the generator's visit order, as (node, ancestor chain)
pairs.  Visiting a node appends its `BaseModel`-valued children (fields in
declaration order, list elements in order) to the deque. -/
def bfs (q : List (Val × List Val)) : List (Val × List Val) :=
  match q with
  | [] => []
  | (n, anc) :: rest =>
      (n, anc) :: bfs (rest ++ (childrenOf n).map (fun c => (c, n :: anc)))
termination_by queueSize q
decreasing_by
  have := childrenOf_size n
  have he : (List.map ((fun c => valSize c.1) ∘ fun c => (c, n :: anc))
      (childrenOf n)).sum = ((childrenOf n).map valSize).sum := rfl
  simp only [queueSize, List.map_append, List.sum_append, List.map_cons,
    List.sum_cons, List.map_map] at *
  omega

/-- Append one error value to the `defaultdict(list)` result of
`_call_validators` (`result[member_path].append(res)`). -/
def appendRes (m : List (String × List Nat)) (k : String) (v : Nat) :
    List (String × List Nat) :=
  match m with
  | [] => [(k, [v])]
  | (k', vs) :: rest =>
      if k' = k then (k', vs ++ [v]) :: rest
      else (k', vs) :: appendRes rest k v

/-- The three ways `Model._call_validators` can leave its loop: an exception
propagates (`raised`), the `stop_on_error` early return fires (`stopped`),
or the loop runs to completion (`done`). -/
inductive CallOut where
  | raised (e : PyErr)
  | stopped (result : List (String × List Nat))
  | done (result : List (String × List Nat))

/-- The inner loop of `Model._call_validators` over one field's registered
entries.  Each invocation is appended to the returned trace (the validator's
`vid`); a raise is wrapped in `ModelValidationException` carrying the
member path and the validator identity, aborting the whole call. -/
def callEntries (self : Val) (anc : List Val) (field : String)
    (fieldValue : Val) (memberPath : String) (entries : List VEntry)
    (stopOnError : Bool) (acc : List (String × List Nat)) :
    CallOut × List Nat :=
  match entries with
  | [] => (.done acc, [])
  | vd :: rest =>
      let validator := vd.func
      match validator.run fieldValue
          (get_extra_validate_args self anc validator.extraParams field) with
      | .error ex =>
          (.raised (.modelValidation memberPath validator.vid ex),
            [validator.vid])
      | .ok (some res) =>
          let acc' := appendRes acc memberPath res
          if stopOnError then (.stopped acc', [validator.vid])
          else
            let o := callEntries self anc field fieldValue memberPath rest
              stopOnError acc'
            (o.1, validator.vid :: o.2)
      | .ok Option.none =>
          let o := callEntries self anc field fieldValue memberPath rest
            stopOnError acc
          (o.1, validator.vid :: o.2)

/-- The outer loop of `Model._call_validators` over the fields of the
validators map.  `getattr(self, field)` happens outside the `try`, so its
`AttributeError` propagates unwrapped. -/
def callFieldsV (self : Val) (anc : List Val)
    (m : List (String × List VEntry)) (stopOnError : Bool)
    (acc : List (String × List Nat)) : CallOut × List Nat :=
  match m with
  | [] => (.done acc, [])
  | (field, vs) :: rest =>
      match getattrF self field with
      | .error e => (.raised e, [])
      | .ok fieldValue =>
          let memberPath := get_attr_path self field
          match callEntries self anc field fieldValue memberPath vs
              stopOnError acc with
          | (.raised e, tr) => (.raised e, tr)
          | (.stopped r, tr) => (.stopped r, tr)
          | (.done acc', tr) =>
              let o := callFieldsV self anc rest stopOnError acc'
              (o.1, tr ++ o.2)

/-- `Model._call_validators(validators_map, stop_on_error)`: empty result
when the map is still `None`, else the field loop with an empty
`defaultdict(list)` accumulator. -/
def call_validators (self : Val) (anc : List Val)
    (vmap : Option (List (String × List VEntry))) (stopOnError : Bool) :
    CallOut × List Nat :=
  match vmap with
  | Option.none => (.done [], [])
  | some m => callFieldsV self anc m stopOnError []

/-- The class tag of a constructed node (used to find its class-level
validator registries). -/
def clsOf : Val → Nat
  | .node c _ _ => c
  | _ => 0

/-- The critical loop of `Model.validate`: walk the given visit order; a
non-empty critical result returns immediately with it; a raise appends to
the collected exceptions and moves on to the next node.  Returns the
short-circuit report (if any), the exceptions collected before returning,
and the trace of invoked validators. -/
def criticalPass (regOf : Nat → Registry) :
    List (Val × List Val) →
      Option (List (String × List Nat)) × List PyErr × List Nat
  | [] => (Option.none, [], [])
  | (n, anc) :: rest =>
      match call_validators n anc (regOf (clsOf n)).criticalValidators true with
      | (.raised e, tr) =>
          let o := criticalPass regOf rest
          (o.1, e :: o.2.1, tr ++ o.2.2)
      | (.stopped res, tr) =>
          if res.isEmpty then
            let o := criticalPass regOf rest
            (o.1, o.2.1, tr ++ o.2.2)
          else (some res, [], tr)
      | (.done res, tr) =>
          if res.isEmpty then
            let o := criticalPass regOf rest
            (o.1, o.2.1, tr ++ o.2.2)
          else (some res, [], tr)

/-- `dict.__setitem__`: replace the value at an existing key in place, or
append the key at the end. -/
def setKey (d : List (String × List Nat)) (k : String) (v : List Nat) :
    List (String × List Nat) :=
  match d with
  | [] => [(k, v)]
  | (k', v') :: rest =>
      if k' = k then (k, v) :: rest else (k', v') :: setKey rest k v

/-- `result.update(errors)`: set every key of `errors`, in order, on
`result`. -/
def dictUpdate (d1 d2 : List (String × List Nat)) :
    List (String × List Nat) :=
  d2.foldl (fun d kv => setKey d kv.1 kv.2) d1

/-- The normal loop of `Model.validate`: walk the given visit order merging
each node's normal results into the accumulated report via `dict.update`; a
raise appends to the exceptions and the walk continues. -/
def normalPass (regOf : Nat → Registry) (acc : List (String × List Nat)) :
    List (Val × List Val) →
      List (String × List Nat) × List PyErr × List Nat
  | [] => (acc, [], [])
  | (n, anc) :: rest =>
      match call_validators n anc (regOf (clsOf n)).validators false with
      | (.raised e, tr) =>
          let o := normalPass regOf acc rest
          (o.1, e :: o.2.1, tr ++ o.2.2)
      | (.stopped r, tr) =>
          let o := normalPass regOf (dictUpdate acc r) rest
          (o.1, o.2.1, tr ++ o.2.2)
      | (.done r, tr) =>
          let o := normalPass regOf (dictUpdate acc r) rest
          (o.1, o.2.1, tr ++ o.2.2)

/-- `Model.validate()`: breadth-first critical pass first — any non-empty
critical result is returned immediately as the whole report, together with
the exceptions collected so far; otherwise the tree is re-walked running the
normal validators.  The exceptions list holds the caught exceptions
themselves (the source appends `traceback.format_exc()`, a text rendering of
the same exception and cause).  The third component is the trace of every
validator invocation performed (ghost instrumentation; not part of the
Python state).  `regOf` maps each model class to its class-level
registries. -/
def validate (regOf : Nat → Registry) (root : Val) :
    (List (String × List Nat) × List PyErr) × List Nat :=
  let order := bfs [(root, [])]
  match criticalPass regOf order with
  | (some rep, exs, tr) => ((rep, exs), tr)
  | (Option.none, exs, tr) =>
      let o := normalPass regOf [] order
      ((o.1, exs ++ o.2.1), tr ++ o.2.2)

theorem intercalate_append_single (c : Char) (xs : List (List Char))
    (y : List Char) (h : xs ≠ []) :
    [c].intercalate (xs ++ [y]) = [c].intercalate xs ++ c :: y := by
  induction xs with
  | nil => exact absurd rfl h
  | cons x rest ih =>
      cases rest with
      | nil => simp [List.intercalate]
      | cons x2 rest2 =>
          have h2 : x2 :: rest2 ≠ [] := by simp
          have := ih h2
          simp only [List.intercalate, List.cons_append,
            List.intersperse_cons_cons, List.flatten, List.append_assoc] at *
          simp [this]

/-- `get_attr_path` always equals the node's stored `_parent_path` joined
with `.` and the attribute name: the split/re-join in the source is the
identity on the stored path. -/
theorem get_attr_path_eq (m : Val) (a : String) :
    get_attr_path m a = parentPathOf m ++ "." ++ a := by
  unfold get_attr_path
  have hne : (parentPathOf m).data.splitOn (Char.ofNat 46) ≠ [] :=
    List.splitOnP_ne_nil _ _
  rw [intercalate_append_single _ _ _ hne, List.intercalate_splitOn]
  cases m with
  | node c p fs =>
      show String.mk (p.data ++ Char.ofNat 46 :: a.data) = p ++ "." ++ a
      cases p with
      | mk pd =>
          cases a with
          | mk ad =>
              show String.mk (pd ++ Char.ofNat 46 :: ad)
                = String.mk ((pd ++ [Char.ofNat 46]) ++ ad)
              simp
  | none => rfl
  | vint n => rfl
  | vstr s =>
      show String.mk ("".data ++ Char.ofNat 46 :: a.data) = "" ++ "." ++ a
      cases a with
      | mk ad => rfl
  | enumMember c v => rfl
  | dict kvs => rfl
  | vlist es => rfl

/-- Looking up the field just appended by `appendAt` yields the old entry
list extended with the new entry. -/
theorem appendAt_lookup (m : List (String × List VEntry)) (field : String)
    (e : VEntry) :
    (appendAt m field e).lookup field = some ((m.lookup field).getD [] ++ [e]) := by
  induction m with
  | nil => simp [appendAt]
  | cons kv rest ih =>
      obtain ⟨k, es⟩ := kv
      by_cases hk : k = field
      · subst hk
        simp [appendAt, List.lookup]
      · have hbk : (field == k) = false := by
          simp [beq_eq_false_iff_ne]
          exact fun hh => hk hh.symm
        simp [appendAt, hk, List.lookup, ih, hbk]

/-- A demonstration validator used in concrete validation scenarios. -/
def vfnOk : ValidatorFn := ⟨100, [], fun _ _ => .ok Option.none⟩

/-- The empty class registry (`BaseModel` defaults: both tiers `None`). -/
def emptyReg : Registry := ⟨Option.none, Option.none⟩

/-- C4, counterexample: registering a validator for the unknown field `"b"`
on a schema declaring only `"a"` raises the unknown-field failure, yet the
normal-tier registry is no longer what it was before the call — the entry
was appended before the check, so partial registration does occur, contrary
to the claim. -/
theorem c4_counterexample :
    (validateDecorator [("a", .intT)] "b" vfnOk false Option.none emptyReg).2.isSome
      = true
    ∧ (validateDecorator [("a", .intT)] "b" vfnOk false Option.none
        emptyReg).1.validators ≠ emptyReg.validators := by
  constructor
  · rfl
  · intro h
    simp [validateDecorator, add_validator, emptyReg, appendAt,
      get_all_properties] at h

/-- C4, amended: registering a validator for a field name that is not among
the Schema Type's declared fields raises the unknown-field `AttributeError`,
but only after `add_validator` has run: the failed call leaves the new entry
appended to the tier's registry under that field name. -/
theorem c4_unknown_field_registration (fs : List (String × Ty))
    (field : String) (func : ValidatorFn) (critical : Bool)
    (when : Option Nat) (reg : Registry)
    (h : field ∉ get_all_properties fs) :
    (validateDecorator fs field func critical when reg).2
      = some (.attributeError "Field does not exist on model")
    ∧ (if critical then
        ((validateDecorator fs field func critical when reg).1.criticalValidators.getD []).lookup
          field = some ((((reg.criticalValidators.getD []).lookup field).getD [])
            ++ [⟨func, when⟩])
      else
        ((validateDecorator fs field func critical when reg).1.validators.getD []).lookup
          field = some ((((reg.validators.getD []).lookup field).getD [])
            ++ [⟨func, when⟩])) := by
  refine ⟨by simp [validateDecorator, h], ?_⟩
  by_cases hc : critical
  · simp [hc, validateDecorator, h, add_validator, appendAt_lookup]
  · simp [hc, validateDecorator, h, add_validator, appendAt_lookup]

/-- C4, witness for the amended theorem at a concrete input. -/
theorem c4_unknown_field_registration_witness :
    "b" ∉ get_all_properties [("a", Ty.intT)]
    ∧ (validateDecorator [("a", Ty.intT)] "b" vfnOk false Option.none
        emptyReg).2 = some (.attributeError "Field does not exist on model") := by
  have h : "b" ∉ get_all_properties [("a", Ty.intT)] := by
    simp [get_all_properties]
  exact ⟨h, (c4_unknown_field_registration [("a", Ty.intT)] "b" vfnOk false
    Option.none emptyReg h).1⟩

/-- A demonstration validator that always reports the error value `5`. -/
def vfnErr : ValidatorFn := ⟨101, [], fun _ _ => .ok (some 5)⟩

/-- Registries for the doubly-nested scenario: class `2` (the inner record
`B`) has one normal validator on its field `"c"`; everything else is empty. -/
def regOfC8 : Nat → Registry := fun c =>
  if c = 2 then ⟨some [("c", [⟨vfnErr, Option.none⟩])], Option.none⟩
  else emptyReg

/-- C8: loading the doubly-nested record `A{b: B{c: int}}` at the default
root path stores `_parent_path = "root.b"` on the inner node; the dotted
path `get_attr_path` computes for `c`'s validators is exactly `"root.b.c"`
(and in general it is the holding node's stored path joined with `.` and the
field name); running validation with a validator registered on `c` keys its
result under precisely that path. -/
theorem c8_path_correctness :
    load 1 [("b", .modelT 2 [("c", .intT)])]
        (.dict [("b", .dict [("c", .vint 7)])]) "root"
      = .ok (.node 1 "root" [("b", .node 2 "root.b" [("c", .vint 7)])])
    ∧ get_attr_path (.node 2 "root.b" [("c", .vint 7)]) "c" = "root.b.c"
    ∧ (∀ (m : Val) (a : String),
        get_attr_path m a = parentPathOf m ++ "." ++ a)
    ∧ validate regOfC8 (.node 1 "root" [("b", .node 2 "root.b" [("c", .vint 7)])])
      = (([("root.b.c", [5])], []), [101]) := by
  refine ⟨?_, rfl, get_attr_path_eq, ?_⟩
  · simp [load, loadFields, parse_value, List.lookup]
    rfl
  · simp [validate, bfs, childrenOf, childrenFields, criticalPass,
      call_validators, regOfC8, emptyReg, clsOf, normalPass, callFieldsV,
      callEntries, getattrF, vfnErr, List.lookup, dictUpdate, setKey,
      get_extra_validate_args]
    rfl

/-- Parsing the value `None` yields `None` whatever the declared type. -/
theorem parse_value_none (ty : Ty) (path : String) :
    parse_value ty .none path = .ok Option.none := by
  cases ty <;> simp [parse_value]

/-- On a `Union` annotation `_parse_value` defers to the declared-order arm
scan (also when the raw value is `None`, where both return `None`). -/
theorem parse_value_unionT (args : List Ty) (v : Val) (path : String) :
    parse_value (.unionT args) v path = parseUnionArgs args v path := by
  cases v with
  | none =>
      rw [show parse_value (.unionT args) Val.none path = .ok Option.none by
        simp [parse_value]]
      induction args with
      | nil => rw [parseUnionArgs]
      | cons a rest ih =>
          rw [parseUnionArgs, parse_value_none]
          simpa using ih
  | vint n => rw [parse_value]; simp
  | vstr s => rw [parse_value]; simp
  | enumMember c w => rw [parse_value]; simp
  | dict kvs => rw [parse_value]; simp
  | node c p fs => rw [parse_value]; simp
  | vlist es => rw [parse_value]; simp

/-- C2: for a variant (`Union`) annotation the parser tries the alternatives
in declared order and returns the result of the first alternative that
parses to a non-`None` value; if every alternative yields `None` the field
is `None`.  Concretely, for variant-of-{Int, String} on the raw value `"5"`
the Int alternative wins under loose coercion, and swapping the declared
order makes the String alternative win instead. -/
theorem c2_union_first_match :
    (∀ (pre : List Ty) (a : Ty) (rest : List Ty) (v : Val) (path : String)
        (w : Val),
        (∀ b ∈ pre, parse_value b v path = .ok Option.none) →
        parse_value a v path = .ok (some w) →
        parse_value (.unionT (pre ++ a :: rest)) v path = .ok (some w))
    ∧ (∀ (args : List Ty) (v : Val) (path : String),
        (∀ b ∈ args, parse_value b v path = .ok Option.none) →
        parse_value (.unionT args) v path = .ok Option.none)
    ∧ parse_value (.unionT [.intT, .strT]) (.vstr "5") "p"
        = .ok (some (.vint 5))
    ∧ parse_value (.unionT [.strT, .intT]) (.vstr "5") "p"
        = .ok (some (.vstr "5")) := by
  refine ⟨?_, ?_, ?_, ?_⟩
  · intro pre a rest v path w hpre ha
    rw [parse_value_unionT]
    induction pre with
    | nil =>
        simp only [List.nil_append]
        rw [parseUnionArgs, ha]
        rfl
    | cons b pre' ih =>
        have hb : parse_value b v path = .ok Option.none :=
          hpre b (by simp)
        simp only [List.cons_append, parseUnionArgs, hb]
        have := ih (fun x hx => hpre x (by simp [hx]))
        simpa [bind, Except.bind] using this
  · intro args v path hall
    rw [parse_value_unionT]
    induction args with
    | nil => rw [parseUnionArgs]
    | cons b rest ih =>
        have hb : parse_value b v path = .ok Option.none := hall b (by simp)
        simp only [parseUnionArgs, hb]
        have := ih (fun x hx => hall x (by simp [hx]))
        simpa using this
  · simp only [parse_value, parseUnionArgs]
    rfl
  · simp only [parse_value, parseUnionArgs]
    rfl

/-- C2, witness: the first-match clause applied with an empty earlier-arm
list to the concrete variant-of-{Int, String} on `"5"`. -/
theorem c2_union_first_match_witness :
    parse_value (.unionT ([] ++ .intT :: [.strT])) (.vstr "5") "p"
      = .ok (some (.vint 5)) :=
  c2_union_first_match.1 [] .intT [.strT] (.vstr "5") "p" (.vint 5)
    (by simp)
    (by simp only [parse_value]; rfl)

/-- The field loop of `load` only consults the input dict at the declared
field names. -/
theorem loadFields_agree (fs : List (String × Ty))
    (kvs1 kvs2 : List (String × Val)) (p : String)
    (h : ∀ name ∈ fs.map Prod.fst, kvs1.lookup name = kvs2.lookup name) :
    loadFields fs (.dict kvs1) p = loadFields fs (.dict kvs2) p := by
  induction fs with
  | nil => simp [loadFields]
  | cons fld rest ih =>
      obtain ⟨name, ty⟩ := fld
      have hname : kvs1.lookup name = kvs2.lookup name := h name (by simp)
      have hrest := ih (fun x hx => h x (by simp [hx]))
      rw [loadFields, loadFields, hname, hrest]

/-- A successful field loop returns exactly the declared attributes, in
declaration order. -/
theorem loadFields_keys (fs : List (String × Ty)) (input : Val) (p : String)
    (flds : List (String × Val)) (h : loadFields fs input p = .ok flds) :
    flds.map Prod.fst = fs.map Prod.fst := by
  induction fs generalizing flds with
  | nil =>
      rw [loadFields] at h
      cases h
      simp
  | cons fld rest ih =>
      obtain ⟨name, ty⟩ := fld
      cases input with
      | dict kvs =>
          rw [loadFields] at h
          cases hp : parse_value ty ((kvs.lookup name).getD .none)
              (p ++ "." ++ name) with
          | error e => rw [hp] at h; cases h
          | ok r =>
              rw [hp] at h
              cases hrest : loadFields rest (.dict kvs) p with
              | error e => rw [hrest] at h; cases h
              | ok rs =>
                  rw [hrest] at h
                  simp only [bind, Except.bind, Except.ok.injEq] at h
                  subst h
                  simpa using ih rs hrest
      | none => simp [loadFields] at h
      | vint n => simp [loadFields] at h
      | vstr s => simp [loadFields] at h
      | enumMember c w => simp [loadFields] at h
      | node c pp nfs => simp [loadFields] at h
      | vlist es => simp [loadFields] at h

/-- C10: `load` reads only the keys named by the declared fields — two raw
documents that agree at every declared field name load to identical nodes —
and a successful load carries exactly the declared attributes, so keys
outside the declared set cause neither an error nor an attribute. -/
theorem c10_load_reads_only_declared (cls : Nat) (fs : List (String × Ty))
    (p : String) (kvs1 kvs2 : List (String × Val))
    (h : ∀ name ∈ fs.map Prod.fst, kvs1.lookup name = kvs2.lookup name) :
    load cls fs (.dict kvs1) p = load cls fs (.dict kvs2) p
    ∧ (∀ r, load cls fs (.dict kvs1) p = .ok r →
        ∃ flds, r = .node cls p flds
          ∧ flds.map Prod.fst = fs.map Prod.fst) := by
  constructor
  · rw [load, load, loadFields_agree fs kvs1 kvs2 p h]
  · intro r hr
    rw [load] at hr
    cases hl : loadFields fs (.dict kvs1) p with
    | error e => rw [hl] at hr; cases hr
    | ok flds =>
        rw [hl] at hr
        simp only [Except.map, Except.ok.injEq] at hr
        exact ⟨flds, hr.symm, loadFields_keys fs _ p flds hl⟩

/-- C10, witness: a document with the extra key `"x"` loads exactly like the
document without it. -/
theorem c10_load_reads_only_declared_witness :
    load 0 [("a", .intT)] (.dict [("a", .vint 1), ("x", .vint 9)]) "root"
      = load 0 [("a", .intT)] (.dict [("a", .vint 1)]) "root" :=
  (c10_load_reads_only_declared 0 [("a", .intT)] "root"
    [("a", .vint 1), ("x", .vint 9)] [("a", .vint 1)]
    (by simp [List.lookup])).1

/-- If the elements before position `|epre|` parse fine and the element at
that position fails, the whole sequence parse fails with exactly that
element's (unwrapped) failure; the failing element is parsed at the
attribute path with its index appended. -/
theorem parseListElems_append_error (e : Ty) (epre : List Val) (v : Val)
    (epost : List Val) (path : String) (i : Nat) (ws : List Val)
    (err : PyErr) (hpre : parseListElems e epre path i = .ok ws)
    (hv : parse_value e v (path ++ "." ++ toString (i + epre.length))
      = .error err) :
    parseListElems e (epre ++ v :: epost) path i = .error err := by
  induction epre generalizing i ws with
  | nil =>
      simp only [List.nil_append]
      rw [parseListElems]
      simp only [List.length_nil, Nat.add_zero] at hv
      rw [hv]
      rfl
  | cons x rest ih =>
      rw [parseListElems] at hpre
      cases hx : parse_value e x (path ++ "." ++ toString i) with
      | error ex => rw [hx] at hpre; cases hpre
      | ok r =>
          rw [hx] at hpre
          cases hrest : parseListElems e rest path (i + 1) with
          | error ex => rw [hrest] at hpre; cases hpre
          | ok rs =>
              simp only [List.cons_append]
              rw [parseListElems, hx]
              have hv' : parse_value e v
                  (path ++ "." ++ toString ((i + 1) + rest.length))
                    = .error err := by
                have : (i + 1) + rest.length = i + (x :: rest).length := by
                  simp [List.length_cons]
                  omega
                rw [this]
                exact hv
              rw [ih (i + 1) rs hrest hv']
              rfl

/-- A field loop that succeeded on a declared-field segment continues at the
appended segment, and an error there aborts the whole loop with it. -/
theorem loadFields_append_error (fpre more : List (String × Ty))
    (kvs : List (String × Val)) (p : String) (l : List (String × Val))
    (err : PyErr) (h : loadFields fpre (.dict kvs) p = .ok l)
    (he : loadFields more (.dict kvs) p = .error err) :
    loadFields (fpre ++ more) (.dict kvs) p = .error err := by
  induction fpre generalizing l with
  | nil => simpa using he
  | cons fld rest ih =>
      obtain ⟨n0, t0⟩ := fld
      rw [loadFields] at h
      cases hp : parse_value t0 ((kvs.lookup n0).getD .none)
          (p ++ "." ++ n0) with
      | error e0 => rw [hp] at h; cases h
      | ok r =>
          rw [hp] at h
          cases hrest : loadFields rest (.dict kvs) p with
          | error e0 => rw [hrest] at h; cases h
          | ok rs =>
              simp only [List.cons_append]
              rw [loadFields, hp, ih rs hrest]
              rfl

/-- C5, counterexample: for the sequence field `xs : List[int]` with raw
value `["a"]`, the element fails at the indexed path `root.xs.0`, but the
`ModelParsingException` that aborts the load carries the *field* path
`root.xs` — not the element's indexed path the claim requires. -/
theorem c5_counterexample :
    load 0 [("xs", .listT .intT)] (.dict [("xs", .vlist [.vstr "a"])]) "root"
      = .error (.modelParsing "root.xs" (.listT .intT) (.vlist [.vstr "a"])
          (.valueError "invalid literal for int()"))
    ∧ ("root.xs" : String) ≠ "root.xs.0" := by
  constructor
  · simp [load, loadFields, parse_value, parseListElems, List.lookup]
    rfl
  · decide

/-- C5, amended: each sequence element is parsed independently at the
attribute path with its index appended (`path.0`, `path.1`, ...), and a
failing element aborts the whole load with a `ModelParsingException` that
carries the sequence *field's* dotted path (without the element index), the
declared sequence type and the raw field value, with the element's original
failure retained as the cause. -/
theorem c5_sequence_failure (cls : Nat) (fpre fpost : List (String × Ty))
    (name : String) (e : Ty) (kvs : List (String × Val)) (p : String)
    (l : List (String × Val)) (vs epre epost : List Val) (v : Val)
    (ws : List Val) (err : PyErr)
    (hfpre : loadFields fpre (.dict kvs) p = .ok l)
    (hlookup : kvs.lookup name = some (.vlist vs))
    (hvs : vs = epre ++ v :: epost)
    (hepre : parseListElems e epre (p ++ "." ++ name) 0 = .ok ws)
    (hv : parse_value e v (p ++ "." ++ name ++ "." ++ toString epre.length)
      = .error err) :
    load cls (fpre ++ (name, .listT e) :: fpost) (.dict kvs) p
      = .error (.modelParsing (p ++ "." ++ name) (.listT e) (.vlist vs) err) := by
  have helem : parseListElems e vs (p ++ "." ++ name) 0 = .error err := by
    subst hvs
    exact parseListElems_append_error e epre v epost (p ++ "." ++ name) 0 ws
      err hepre (by simpa using hv)
  have hfield : parse_value (.listT e) (.vlist vs) (p ++ "." ++ name)
      = .error err := by
    rw [parse_value, helem]
    rfl
  have hone : loadFields ((name, .listT e) :: fpost) (.dict kvs) p
      = .error (.modelParsing (p ++ "." ++ name) (.listT e) (.vlist vs) err) := by
    rw [loadFields, hlookup]
    simp only [Option.getD_some]
    rw [hfield]
  rw [load, loadFields_append_error fpre _ kvs p l _ hfpre hone]
  rfl

/-- C5, witness for the amended theorem: `xs : List[int]` on `["1", "a"]` —
element 0 parses, element 1 fails at `root.xs.1`, and the load aborts with
the failure keyed at `root.xs` carrying the declared type, raw value and
cause. -/
theorem c5_sequence_failure_witness :
    load 0 [("xs", .listT .intT)]
        (.dict [("xs", .vlist [.vstr "1", .vstr "a"])]) "root"
      = .error (.modelParsing ("root" ++ "." ++ "xs") (.listT .intT)
          (.vlist [.vstr "1", .vstr "a"])
          (.valueError "invalid literal for int()")) :=
  c5_sequence_failure 0 [] [] "xs" .intT
    [("xs", .vlist [.vstr "1", .vstr "a"])] "root" [] [.vstr "1", .vstr "a"]
    [.vstr "1"] [] (.vstr "a") [.vint 1]
    (.valueError "invalid literal for int()")
    (by rw [loadFields])
    (by simp [List.lookup])
    rfl
    (by simp [parseListElems, parse_value]; rfl)
    (by simp only [parse_value]; rfl)

mutual
/-- Is a value free of enum members anywhere inside it? -/
def enumFree : Val → Bool
  | .enumMember _ _ => false
  | .dict kvs => enumFreeFields kvs
  | .node _ _ fs => enumFreeFields fs
  | .vlist es => enumFreeElems es
  | _ => true

def enumFreeFields : List (String × Val) → Bool
  | [] => true
  | (_, v) :: rest => enumFree v && enumFreeFields rest

def enumFreeElems : List Val → Bool
  | [] => true
  | v :: rest => enumFree v && enumFreeElems rest
end

mutual
/-- The normalization guarantee `Model.dump`'s walk actually provides for a
dict entry it reaches: no enum member sits directly as a dict value, dict
values are reached recursively, and dict elements sitting directly inside a
list value are reached — while other list elements (enum members, nested
lists and everything below them) are not constrained. -/
def walkNormedEntry : Val → Bool
  | .enumMember _ _ => false
  | .dict kvs => walkNormedEntries kvs
  | .vlist es => walkNormedElems es
  | _ => true

def walkNormedEntries : List (String × Val) → Bool
  | [] => true
  | (_, v) :: rest => walkNormedEntry v && walkNormedEntries rest

def walkNormedElems : List Val → Bool
  | [] => true
  | v :: rest =>
      (match v with
        | .dict kvs => walkNormedEntries kvs
        | _ => true) && walkNormedElems rest
end

mutual
theorem walkNormed_normEntry : ∀ v : Val,
    walkNormedEntry (normEntry v) = true
  | .none => rfl
  | .vint _ => rfl
  | .vstr _ => rfl
  | .enumMember _ _ => rfl
  | .node _ _ _ => rfl
  | .dict kvs => by
      rw [normEntry, walkNormedEntry]
      exact walkNormed_normEntries kvs
  | .vlist es => by
      rw [normEntry, walkNormedEntry]
      exact walkNormed_normElems es

theorem walkNormed_normEntries : ∀ kvs : List (String × Val),
    walkNormedEntries (normEntries kvs) = true
  | [] => rfl
  | (k, v) :: rest => by
      rw [normEntries, walkNormedEntries, walkNormed_normEntry v,
        walkNormed_normEntries rest]
      rfl

theorem walkNormed_normElems : ∀ es : List Val,
    walkNormedElems (normElems es) = true
  | [] => rfl
  | v :: rest => by
      cases v with
      | dict kvs =>
          rw [normElems, walkNormedElems, walkNormed_normElems rest,
            walkNormed_normEntries kvs] <;> simp
      | none =>
          rw [normElems, walkNormedElems, walkNormed_normElems rest] <;> simp
      | vint n =>
          rw [normElems, walkNormedElems, walkNormed_normElems rest] <;> simp
      | vstr s =>
          rw [normElems, walkNormedElems, walkNormed_normElems rest] <;> simp
      | enumMember c w =>
          rw [normElems, walkNormedElems, walkNormed_normElems rest] <;> simp
      | node c p fs =>
          rw [normElems, walkNormedElems, walkNormed_normElems rest] <;> simp
      | vlist es2 =>
          rw [normElems, walkNormedElems, walkNormed_normElems rest] <;> simp
end

theorem asdictFields_eq_map (kvs : List (String × Val)) :
    asdictFields kvs = kvs.map (fun kv => (kv.1, asdictVal kv.2)) := by
  induction kvs with
  | nil => rfl
  | cons kv rest ih => rw [asdictFields, ih]; rfl

theorem normEntries_eq_map (kvs : List (String × Val)) :
    normEntries kvs = kvs.map (fun kv => (kv.1, normEntry kv.2)) := by
  induction kvs with
  | nil => rfl
  | cons kv rest ih => rw [normEntries, ih]; rfl

theorem lookup_map_value (kvs : List (String × Val))
    (name : String) :
    (kvs.map (fun kv => (kv.1, normEntry (asdictVal kv.2)))).lookup name
      = (kvs.lookup name).map (fun v => normEntry (asdictVal v)) := by
  induction kvs with
  | nil => rfl
  | cons kv rest ih =>
      obtain ⟨k, v⟩ := kv
      by_cases hk : name = k
      · subst hk
        simp [List.lookup]
      · have hbk : (name == k) = false := by
          simp [beq_eq_false_iff_ne]
          exact hk
        simp [List.lookup, hbk, ih]

theorem asdictElems_length (es : List Val) :
    (asdictElems es).length = es.length := by
  induction es with
  | nil => rfl
  | cons v rest ih => rw [asdictElems]; simp [ih]

theorem normElems_length (es : List Val) :
    (normElems es).length = es.length := by
  induction es with
  | nil => rfl
  | cons v rest ih =>
      cases v <;> (rw [normElems] <;> simp [ih])

/-- C7, counterexample: dumping a node whose sequence field holds an enum
member leaves the enum member inside the list un-normalized — the produced
document still contains an enum value, contrary to the claim that every
enumerated value, including those inside sequence fields, is normalized to
its underlying scalar. -/
theorem c7_counterexample :
    dump (.node 0 "root" [("xs", .vlist [.enumMember 7 3])])
      = .dict [("xs", .vlist [.enumMember 7 3])]
    ∧ enumFree (.dict [("xs", .vlist [.enumMember 7 3])]) = false := ⟨rfl, rfl⟩

/-- C7, amended: `dump` is total and produces a full structural copy of the
declared fields: the document's keys are exactly the declared field names in
order, nested nodes become nested documents mirroring their own declared
fields, sequences map element-wise, and enum members are normalized to their
underlying value on every dict entry the normalization walk reaches (dict
values recursively, and dicts sitting directly inside list values) — but
enum members that are elements of sequence fields are left as enum members. -/
theorem c7_dump_structure (cls : Nat) (pp : String)
    (fvs : List (String × Val)) :
    dump (.node cls pp fvs)
        = .dict (fvs.map (fun kv => (kv.1, normEntry (asdictVal kv.2))))
    ∧ (fvs.map (fun kv => (kv.1, normEntry (asdictVal kv.2)))).map Prod.fst
        = fvs.map Prod.fst
    ∧ walkNormedEntry (dump (.node cls pp fvs)) = true
    ∧ (∀ name c' p' fvs', fvs.lookup name = some (.node c' p' fvs') →
        (fvs.map (fun kv => (kv.1, normEntry (asdictVal kv.2)))).lookup name
          = some (.dict (fvs'.map (fun kv => (kv.1, normEntry (asdictVal kv.2))))))
    ∧ (∀ name es, fvs.lookup name = some (.vlist es) →
        ∃ ds, (fvs.map (fun kv => (kv.1, normEntry (asdictVal kv.2)))).lookup name
          = some (.vlist ds) ∧ ds.length = es.length)
    ∧ (∀ name c w, fvs.lookup name = some (.enumMember c w) →
        (fvs.map (fun kv => (kv.1, normEntry (asdictVal kv.2)))).lookup name
          = some (.vint w)) := by
  have hdump : dump (.node cls pp fvs)
      = .dict (fvs.map (fun kv => (kv.1, normEntry (asdictVal kv.2)))) := by
    show (match asdictVal (.node cls pp fvs) with
      | .dict kvs => Val.dict (normEntries kvs)
      | w => w) = _
    rw [asdictVal]
    simp only
    rw [normEntries_eq_map, asdictFields_eq_map, List.map_map]
    rfl
  refine ⟨hdump, by simp, ?_, ?_, ?_, ?_⟩
  · rw [hdump]
    have h1 : Val.dict (fvs.map (fun kv => (kv.1, normEntry (asdictVal kv.2))))
        = normEntry (.dict (fvs.map (fun kv => (kv.1, asdictVal kv.2)))) := by
      rw [normEntry, normEntries_eq_map, List.map_map]
      rfl
    rw [h1]
    exact walkNormed_normEntry _
  · intro name c' p' fvs' hl
    rw [lookup_map_value, hl]
    show some (normEntry (asdictVal (Val.node c' p' fvs')))
      = some (.dict (fvs'.map (fun kv => (kv.1, normEntry (asdictVal kv.2)))))
    rw [asdictVal, normEntry, normEntries_eq_map, asdictFields_eq_map,
      List.map_map]
    rfl
  · intro name es hl
    rw [lookup_map_value, hl]
    refine ⟨normElems (asdictElems es), ?_, ?_⟩
    · show some (normEntry (asdictVal (Val.vlist es)))
        = some (.vlist (normElems (asdictElems es)))
      rw [asdictVal, normEntry]
    · rw [normElems_length, asdictElems_length]
  · intro name c w hl
    rw [lookup_map_value, hl]
    rfl

/-- C7, witness: the amended structure theorem applied to a concrete node
holding a direct enum field, a nested node and a sequence. -/
theorem c7_dump_structure_witness :
    dump (.node 0 "root" [("e", .enumMember 7 3), ("xs", .vlist [.vint 1])])
      = .dict [("e", .vint 3), ("xs", .vlist [.vint 1])]
    ∧ ([("e", .enumMember 7 3), ("xs", .vlist [.vint 1])].lookup "e"
        = some (Val.enumMember 7 3) →
      ([("e", Val.vint 3), ("xs", Val.vlist [.vint 1])] : List (String × Val)).lookup "e"
        = some (.vint 3)) := by
  have h := c7_dump_structure 0 "root"
    [("e", .enumMember 7 3), ("xs", .vlist [.vint 1])]
  refine ⟨?_, fun hx => ?_⟩
  · have := h.1
    simpa using this
  · have := h.2.2.2.2.2 "e" 7 3 (by simp [List.lookup])
    simpa [List.lookup] using this

/-- Every context the breadth-first walk visits resolves its root ancestor,
by following the parent chain, to the same node the walk was started on:
children are enqueued with their parent pushed onto the ancestor chain, and
`get_root_ref c (n :: anc) = get_root_ref n anc` by definition. -/
theorem bfs_root_ref (root : Val) :
    ∀ q : List (Val × List Val),
      (∀ c ∈ q, get_root_ref c.1 c.2 = root) →
      ∀ c ∈ bfs q, get_root_ref c.1 c.2 = root := by
  intro q
  induction q using bfs.induct with
  | case1 => intro _ c hc; rw [bfs] at hc; cases hc
  | case2 n anc rest ih =>
      intro hq c hc
      rw [bfs] at hc
      rcases List.mem_cons.mp hc with h | h
      · subst h
        exact hq (n, anc) (by simp)
      · refine ih ?_ c h
        intro d hd
        rcases List.mem_append.mp hd with h1 | h1
        · exact hq d (by simp [h1])
        · rcases List.mem_map.mp h1 with ⟨ch, _, hch⟩
          subst hch
          show get_root_ref ch (n :: anc) = root
          rw [get_root_ref]
          exact hq (n, anc) (by simp)

/-- C9: on every tree walked from a loaded root, a validator that names
`root_ref` receives the original top-level node — `get_root_ref` follows the
parent chain of the visited node all the way up — and every contextual extra
is supplied only under a declared parameter name drawn from the recognized
set.  Concretely, on the doubly-nested tree the grandchild's context
resolves `root_ref` to the top-level node, not the intermediate parent. -/
theorem c9_root_ref_injection :
    (∀ (root : Val) (n : Val) (anc : List Val),
        (n, anc) ∈ bfs [(root, [])] → get_root_ref n anc = root)
    ∧ (∀ (self : Val) (anc : List Val) (params : List String) (field : String),
        "root_ref" ∈ params →
        (get_extra_validate_args self anc params field).lookup "root_ref"
          = some (.rootRef (get_root_ref self anc)))
    ∧ (∀ (self : Val) (anc : List Val) (params : List String) (field : String)
        (p : String) (x : ExtraArg),
        (get_extra_validate_args self anc params field).lookup p = some x →
        p ∈ params ∧ p ∈ ["parent_path", "attr_path", "root_ref", "parent_ref"])
    ∧ bfs [(Val.node 1 "root" [("b", .node 2 "root.b" [("c2", .node 3 "root.b.c2" [])])], [])]
      = [(Val.node 1 "root" [("b", .node 2 "root.b" [("c2", .node 3 "root.b.c2" [])])], []),
         (Val.node 2 "root.b" [("c2", .node 3 "root.b.c2" [])],
           [Val.node 1 "root" [("b", .node 2 "root.b" [("c2", .node 3 "root.b.c2" [])])]]),
         (Val.node 3 "root.b.c2" [],
           [Val.node 2 "root.b" [("c2", .node 3 "root.b.c2" [])],
            Val.node 1 "root" [("b", .node 2 "root.b" [("c2", .node 3 "root.b.c2" [])])]])]
    ∧ get_root_ref (Val.node 3 "root.b.c2" [])
        [Val.node 2 "root.b" [("c2", .node 3 "root.b.c2" [])],
         Val.node 1 "root" [("b", .node 2 "root.b" [("c2", .node 3 "root.b.c2" [])])]]
      = Val.node 1 "root" [("b", .node 2 "root.b" [("c2", .node 3 "root.b.c2" [])])] := by
  refine ⟨?_, ?_, ?_, ?_, rfl⟩
  · intro root n anc hmem
    exact bfs_root_ref root [(root, [])] (by simp [get_root_ref]) (n, anc) hmem
  · intro self anc params field hmem
    induction params with
    | nil => cases hmem
    | cons p rest ih =>
        rw [get_extra_validate_args]
        by_cases h1 : p = "parent_path"
        · subst h1
          simp only [if_pos rfl]
          have : ("root_ref" : String) ≠ "parent_path" := by decide
          rcases List.mem_cons.mp hmem with h | h
          · exact absurd h.symm (by decide)
          · simp only [List.lookup, show (("root_ref" : String) == "parent_path")
              = false by decide]
            exact ih h
        · by_cases h2 : p = "attr_path"
          · subst h2
            simp only [h1, if_neg, if_pos rfl, reduceCtorEq]
            rcases List.mem_cons.mp hmem with h | h
            · exact absurd h.symm (by decide)
            · simp only [List.lookup, show (("root_ref" : String) == "attr_path")
                = false by decide]
              exact ih h
          · by_cases h3 : p = "root_ref"
            · subst h3
              simp only [h1, h2, if_neg, if_pos rfl]
              simp [List.lookup]
            · by_cases h4 : p = "parent_ref"
              · subst h4
                simp only [h1, h2, h3, if_neg, if_pos rfl]
                rcases List.mem_cons.mp hmem with h | h
                · exact absurd h.symm (by decide)
                · simp only [List.lookup,
                    show (("root_ref" : String) == "parent_ref") = false by decide]
                  exact ih h
              · simp only [h1, h2, h3, h4, if_neg]
                rcases List.mem_cons.mp hmem with h | h
                · exact absurd h.symm h3
                · exact ih h
  · intro self anc params field p x hl
    induction params with
    | nil => rw [get_extra_validate_args] at hl; cases hl
    | cons q rest ih =>
        rw [get_extra_validate_args] at hl
        by_cases h1 : q = "parent_path"
        · subst h1
          rw [if_pos rfl] at hl
          by_cases hpq : p = "parent_path"
          · exact ⟨by simp [hpq], by simp [hpq]⟩
          · rw [List.lookup, show ((p == "parent_path") = false) by
              simpa [beq_eq_false_iff_ne] using hpq] at hl
            have := ih hl
            exact ⟨by simp [this.1], this.2⟩
        · by_cases h2 : q = "attr_path"
          · subst h2
            rw [if_neg h1, if_pos rfl] at hl
            by_cases hpq : p = "attr_path"
            · exact ⟨by simp [hpq], by simp [hpq]⟩
            · rw [List.lookup, show ((p == "attr_path") = false) by
                simpa [beq_eq_false_iff_ne] using hpq] at hl
              have := ih hl
              exact ⟨by simp [this.1], this.2⟩
          · by_cases h3 : q = "root_ref"
            · subst h3
              rw [if_neg h1, if_neg h2, if_pos rfl] at hl
              by_cases hpq : p = "root_ref"
              · exact ⟨by simp [hpq], by simp [hpq]⟩
              · rw [List.lookup, show ((p == "root_ref") = false) by
                  simpa [beq_eq_false_iff_ne] using hpq] at hl
                have := ih hl
                exact ⟨by simp [this.1], this.2⟩
            · by_cases h4 : q = "parent_ref"
              · subst h4
                rw [if_neg h1, if_neg h2, if_neg h3, if_pos rfl] at hl
                by_cases hpq : p = "parent_ref"
                · exact ⟨by simp [hpq], by simp [hpq]⟩
                · rw [List.lookup, show ((p == "parent_ref") = false) by
                    simpa [beq_eq_false_iff_ne] using hpq] at hl
                  have := ih hl
                  exact ⟨by simp [this.1], this.2⟩
              · rw [if_neg h1, if_neg h2, if_neg h3, if_neg h4] at hl
                have := ih hl
                exact ⟨by simp [this.1], this.2⟩
  · simp [bfs, childrenOf, childrenFields, queueSize]

/-- C9, witness: the invariant applied to the concrete doubly-nested tree at
its grandchild context, and the injection clause applied to a validator
declaring `(value, root_ref)`. -/
theorem c9_root_ref_injection_witness :
    get_root_ref (Val.node 3 "root.b.c2" [])
        [Val.node 2 "root.b" [("c2", .node 3 "root.b.c2" [])],
         Val.node 1 "root" [("b", .node 2 "root.b" [("c2", .node 3 "root.b.c2" [])])]]
      = Val.node 1 "root" [("b", .node 2 "root.b" [("c2", .node 3 "root.b.c2" [])])]
    ∧ (get_extra_validate_args (Val.node 3 "root.b.c2" [])
        [Val.node 2 "root.b" [("c2", .node 3 "root.b.c2" [])],
         Val.node 1 "root" [("b", .node 2 "root.b" [("c2", .node 3 "root.b.c2" [])])]]
        ["root_ref"] "x").lookup "root_ref"
      = some (.rootRef (Val.node 1 "root"
          [("b", .node 2 "root.b" [("c2", .node 3 "root.b.c2" [])])])) := by
  constructor
  · exact c9_root_ref_injection.1
      (Val.node 1 "root" [("b", .node 2 "root.b" [("c2", .node 3 "root.b.c2" [])])])
      (Val.node 3 "root.b.c2" [])
      [Val.node 2 "root.b" [("c2", .node 3 "root.b.c2" [])],
       Val.node 1 "root" [("b", .node 2 "root.b" [("c2", .node 3 "root.b.c2" [])])]]
      (by rw [c9_root_ref_injection.2.2.2.1]; simp)
  · exact c9_root_ref_injection.2.1
      (Val.node 3 "root.b.c2" [])
      [Val.node 2 "root.b" [("c2", .node 3 "root.b.c2" [])],
       Val.node 1 "root" [("b", .node 2 "root.b" [("c2", .node 3 "root.b.c2" [])])]]
      ["root_ref"] "x" (by simp)

/-- Scanning an order whose prefix produces no critical errors (each prefix
node's critical call either finishes with an empty result or raises) and
then hits a node whose critical call stops with a non-empty result: the scan
returns exactly that node's result, the exceptions collected over the
prefix, and a trace that ends at the stopping node — nothing after it is
invoked. -/
theorem criticalPass_stops (regOf : Nat → Registry)
    (pre : List (Val × List Val)) (n : Val) (anc : List Val)
    (post : List (Val × List Val)) (res : List (String × List Nat))
    (tr : List Nat)
    (hpre : ∀ c ∈ pre,
      (∃ tr0, call_validators c.1 c.2 (regOf (clsOf c.1)).criticalValidators
          true = (.done [], tr0))
      ∨ (∃ e tr0, call_validators c.1 c.2 (regOf (clsOf c.1)).criticalValidators
          true = (.raised e, tr0)))
    (hn : call_validators n anc (regOf (clsOf n)).criticalValidators true
      = (.stopped res, tr))
    (hres : res ≠ []) :
    criticalPass regOf (pre ++ (n, anc) :: post)
      = (some res, (criticalPass regOf pre).2.1,
          (criticalPass regOf pre).2.2 ++ tr) := by
  induction pre with
  | nil =>
      simp only [List.nil_append]
      simp only [criticalPass, hn]
      simp [List.isEmpty_eq_true, hres]
  | cons c pre' ih =>
      obtain ⟨m, a⟩ := c
      have hih := ih (fun d hd => hpre d (by simp [hd]))
      rcases hpre (m, a) (by simp) with ⟨tr0, hdone⟩ | ⟨e, tr0, hraised⟩
      · simp only [List.cons_append]
        simp only [criticalPass, hdone, List.isEmpty_nil, if_pos, hih]
        simp [List.append_assoc]
      · simp only [List.cons_append]
        simp only [criticalPass, hraised, hih]
        simp [List.append_assoc]

/-- C1: `validate` runs the breadth-first critical pass first; the moment a
visited node's critical validators yield a non-empty result, `validate`
returns immediately with exactly that result as the entire Error Report
(paired with the internal failures collected before it), and its invocation
trace is exactly the prefix's critical invocations followed by the stopping
node's — critical validators of nodes not yet visited are never invoked and
the normal pass never runs. -/
theorem c1_critical_short_circuit (regOf : Nat → Registry) (root : Val)
    (pre : List (Val × List Val)) (n : Val) (anc : List Val)
    (post : List (Val × List Val)) (res : List (String × List Nat))
    (tr : List Nat)
    (horder : bfs [(root, [])] = pre ++ (n, anc) :: post)
    (hpre : ∀ c ∈ pre,
      (∃ tr0, call_validators c.1 c.2 (regOf (clsOf c.1)).criticalValidators
          true = (.done [], tr0))
      ∨ (∃ e tr0, call_validators c.1 c.2 (regOf (clsOf c.1)).criticalValidators
          true = (.raised e, tr0)))
    (hn : call_validators n anc (regOf (clsOf n)).criticalValidators true
      = (.stopped res, tr))
    (hres : res ≠ []) :
    validate regOf root
      = ((res, (criticalPass regOf pre).2.1),
          (criticalPass regOf pre).2.2 ++ tr) := by
  rw [validate, horder, criticalPass_stops regOf pre n anc post res tr hpre
    hn hres]

/-- Critical validator for the root class in the short-circuit scenario. -/
def vfnCritRoot : ValidatorFn := ⟨201, [], fun _ _ => .ok (some 11)⟩

/-- Critical validator for the child class in the short-circuit scenario —
it would also fail, but must never be invoked. -/
def vfnCritChild : ValidatorFn := ⟨202, [], fun _ _ => .ok (some 12)⟩

/-- Registries for the short-circuit scenario: class 1 and class 2 each have
one critical validator on field `"a"`. -/
def regOfC1 : Nat → Registry := fun c =>
  if c = 1 then ⟨Option.none, some [("a", [⟨vfnCritRoot, Option.none⟩])]⟩
  else if c = 2 then ⟨Option.none, some [("a", [⟨vfnCritChild, Option.none⟩])]⟩
  else emptyReg

/-- The child node of the short-circuit scenario. -/
def childC1 : Val := .node 2 "root.b" [("a", .vint 0)]

/-- The root node of the short-circuit scenario. -/
def rootC1 : Val := .node 1 "root" [("a", .vint 0), ("b", childC1)]

/-- C1, witness: in the concrete tree where the root's critical validator
fails and the descendant's critical validator would also fail, `validate`
returns only the root's error and the trace shows the descendant's critical
validator (id 202) was never invoked. -/
theorem c1_critical_short_circuit_witness :
    validate regOfC1 rootC1 = (([("root.a", [11])], []), [201]) := by
  have h := c1_critical_short_circuit regOfC1 rootC1 [] rootC1 []
    [(childC1, [rootC1])] [("root.a", [11])] [201]
    (by simp [bfs, rootC1, childC1, childrenOf, childrenFields, queueSize])
    (by simp)
    (by simp [call_validators, regOfC1, rootC1, childC1, clsOf, callFieldsV,
      callEntries, getattrF, vfnCritRoot, List.lookup, appendRes,
      get_extra_validate_args]
        rfl)
    (by simp)
  simpa [criticalPass] using h

/-- `normalPass` splits over an appended visit order: the report accumulator
threads left to right, and exceptions and traces concatenate. -/
theorem normalPass_append (regOf : Nat → Registry)
    (l1 l2 : List (Val × List Val)) (acc : List (String × List Nat)) :
    normalPass regOf acc (l1 ++ l2)
      = ((normalPass regOf (normalPass regOf acc l1).1 l2).1,
          (normalPass regOf acc l1).2.1
            ++ (normalPass regOf (normalPass regOf acc l1).1 l2).2.1,
          (normalPass regOf acc l1).2.2
            ++ (normalPass regOf (normalPass regOf acc l1).1 l2).2.2) := by
  induction l1 generalizing acc with
  | nil => simp [normalPass]
  | cons c rest ih =>
      obtain ⟨m, a⟩ := c
      cases hcv : call_validators m a (regOf (clsOf m)).validators false with
      | mk o tr =>
          cases o with
          | raised e =>
              simp only [List.cons_append, normalPass, hcv, ih]
              simp [ih]
          | stopped r =>
              simp only [List.cons_append, normalPass, hcv, ih]
              simp [ih]
          | done r =>
              simp only [List.cons_append, normalPass, hcv, ih]
              simp [ih]

/-- C3: a validator raise during the normal pass is wrapped in
`ModelValidationException` carrying the member path and the validator
identity and lands in the internal-failures channel, never in the Error
Report; the traversal continues with the next node, so the report is the
merge of all other nodes' results (the crashing node contributes nothing)
and later nodes' validators still run (their invocations appear in the
trace). -/
theorem c3_crash_isolation (regOf : Nat → Registry) (root : Val)
    (pre : List (Val × List Val)) (x : Val) (ax : List Val)
    (post : List (Val × List Val)) (e : PyErr) (trx : List Nat)
    (exs0 : List PyErr) (tr0 : List Nat)
    (horder : bfs [(root, [])] = pre ++ (x, ax) :: post)
    (hcrit : criticalPass regOf (bfs [(root, [])])
      = (Option.none, exs0, tr0))
    (hx : call_validators x ax (regOf (clsOf x)).validators false
      = (.raised e, trx)) :
    validate regOf root
      = (((normalPass regOf (normalPass regOf [] pre).1 post).1,
          exs0 ++ ((normalPass regOf [] pre).2.1
            ++ e :: (normalPass regOf (normalPass regOf [] pre).1 post).2.1)),
          tr0 ++ ((normalPass regOf [] pre).2.2
            ++ (trx ++ (normalPass regOf (normalPass regOf [] pre).1 post).2.2)))
    ∧ (∀ (self : Val) (anc : List Val) (field : String) (fv : Val)
        (mpath : String) (vd : VEntry) (rest : List VEntry) (stopB : Bool)
        (acc : List (String × List Nat)) (ex : PyErr),
        vd.func.run fv (get_extra_validate_args self anc vd.func.extraParams
          field) = .error ex →
        callEntries self anc field fv mpath (vd :: rest) stopB acc
          = (.raised (.modelValidation mpath vd.func.vid ex),
              [vd.func.vid])) := by
  constructor
  · rw [validate, hcrit]
    simp only [horder, normalPass_append]
    have hmid : normalPass regOf (normalPass regOf [] pre).1 ((x, ax) :: post)
        = ((normalPass regOf (normalPass regOf [] pre).1 post).1,
            e :: (normalPass regOf (normalPass regOf [] pre).1 post).2.1,
            trx ++ (normalPass regOf (normalPass regOf [] pre).1 post).2.2) := by
      simp only [normalPass, hx]
    rw [hmid]
  · intro self anc field fv mpath vd rest stopB acc ex hrun
    rw [callEntries]
    simp only [hrun]

/-- Normal validator on the root class that raises. -/
def vfnRaise : ValidatorFn := ⟨203, [], fun _ _ => .error (.valueError "boom")⟩

/-- Normal validator on the child class that reports the error value 12. -/
def vfnChildErr : ValidatorFn := ⟨204, [], fun _ _ => .ok (some 12)⟩

/-- Registries for the crash-isolation scenario: class 1's normal validator
raises, class 2's normal validator reports an error value; no critical
validators anywhere. -/
def regOfC3 : Nat → Registry := fun c =>
  if c = 1 then ⟨some [("a", [⟨vfnRaise, Option.none⟩])], Option.none⟩
  else if c = 2 then ⟨some [("a", [⟨vfnChildErr, Option.none⟩])], Option.none⟩
  else emptyReg

/-- C3, witness: in the concrete two-node tree the root's normal validator
raises, yet the child's normal validator still runs (id 204 in the trace)
and contributes its result to the Error Report, while the wrapped raise —
carrying the member path `root.a` and the validator id 203 — appears only in
the internal failures. -/
theorem c3_crash_isolation_witness :
    validate regOfC3 rootC1
      = (([("root.b.a", [12])],
          [.modelValidation "root.a" 203 (.valueError "boom")]),
          [203, 204]) := by
  have h := (c3_crash_isolation regOfC3 rootC1 [] rootC1 []
    [(childC1, [rootC1])]
    (.modelValidation "root.a" 203 (.valueError "boom")) [203] [] []
    (by simp [bfs, rootC1, childC1, childrenOf, childrenFields, queueSize])
    (by simp [bfs, rootC1, childC1, childrenOf, childrenFields, queueSize,
      criticalPass, call_validators, regOfC3, clsOf, emptyReg])
    (by simp [call_validators, regOfC3, rootC1, childC1, clsOf, callFieldsV,
      callEntries, getattrF, vfnRaise, List.lookup,
      get_extra_validate_args]
        rfl)).1
  rw [h]
  simp [normalPass, call_validators, regOfC3, rootC1, childC1, clsOf,
    callFieldsV, callEntries, getattrF, vfnChildErr, List.lookup, appendRes,
    get_extra_validate_args, dictUpdate, setKey]
  rfl

/-- The treatment `Model.dump`'s walk gives one list element: a dict element
is normalized (it is pushed on the stack), anything else is left as is. -/
def elemNorm : Val → Val
  | .dict kvs => .dict (normEntries kvs)
  | v => v

/-- The two states a value can be in when the parser re-reads it from a
dumped document sitting as a dict entry: reached by the normalization walk
(`true`, so `normEntry` was applied) or not reached (below a list inside a
list — left as plain `asdict` output). -/
def entryTrans : Bool → Val → Val
  | true, v => normEntry v
  | false, v => v

/-- Likewise for list elements: reached (`elemNorm` applied) or not. -/
def elemTrans : Bool → Val → Val
  | true, v => elemNorm v
  | false, v => v

/-- Map a function over the values of an association list. -/
def mapVals (f : Val → Val) : List (String × Val) → List (String × Val)
  | [] => []
  | (k, v) :: rest => (k, f v) :: mapVals f rest

theorem lookup_mapVals (f : Val → Val) (kvs : List (String × Val))
    (name : String) :
    (mapVals f kvs).lookup name = (kvs.lookup name).map f := by
  induction kvs with
  | nil => rfl
  | cons kv rest ih =>
      obtain ⟨k, v⟩ := kv
      by_cases hk : name = k
      · subst hk
        simp [mapVals, List.lookup]
      · have hbk : (name == k) = false := by
          simp [beq_eq_false_iff_ne]
          exact hk
        simp [mapVals, List.lookup, hbk, ih]

theorem mapVals_mapVals (f g : Val → Val) (kvs : List (String × Val)) :
    mapVals g (mapVals f kvs) = mapVals (fun v => g (f v)) kvs := by
  induction kvs with
  | nil => rfl
  | cons kv rest ih =>
      obtain ⟨k, v⟩ := kv
      simp [mapVals, ih]

theorem asdictFields_mapVals (kvs : List (String × Val)) :
    asdictFields kvs = mapVals asdictVal kvs := by
  induction kvs with
  | nil => rfl
  | cons kv rest ih => rw [asdictFields, mapVals, ih]

theorem normEntries_mapVals (kvs : List (String × Val)) :
    normEntries kvs = mapVals normEntry kvs := by
  induction kvs with
  | nil => rfl
  | cons kv rest ih => rw [normEntries, mapVals, ih]

theorem asdictElems_map (es : List Val) :
    asdictElems es = es.map asdictVal := by
  induction es with
  | nil => rfl
  | cons v rest ih => rw [asdictElems, ih]; rfl

theorem normElems_map_elemNorm (es : List Val) :
    normElems es = es.map elemNorm := by
  induction es with
  | nil => rfl
  | cons v rest ih =>
      cases v <;> (rw [normElems, ih] <;> simp [elemNorm])

/-- An element transform is always one of the two entry transforms on the
given value (`elemNorm` only rewrites dicts, exactly as a reached entry
would be rewritten on a dict). -/
theorem elemNorm_eq_entryTrans (w : Val) :
    ∃ b : Bool, elemNorm w = entryTrans b w := by
  cases w with
  | dict kvs => exact ⟨true, rfl⟩
  | none => exact ⟨false, rfl⟩
  | vint n => exact ⟨false, rfl⟩
  | vstr s => exact ⟨false, rfl⟩
  | enumMember c v => exact ⟨false, rfl⟩
  | node c p fs => exact ⟨false, rfl⟩
  | vlist es => exact ⟨false, rfl⟩

/-- The dumped document `D` holds, at each declared field name, the dumped
form (under transform state `b`) of the corresponding node attribute. -/
def dictCoversB (b : Bool) (D : List (String × Val)) :
    List (String × Ty) → List (String × Val) → Prop
  | [], [] => True
  | (name, _) :: fs', (_, v) :: fvs' =>
      D.lookup name = some (entryTrans b (asdictVal v))
        ∧ dictCoversB b D fs' fvs'
  | _, _ => False

mutual
/-- Values that survive the dump/load round trip: one canonical typed value
per declared type shape.  The `union` constructor additionally demands that
every alternative declared *before* the chosen one parses the dumped value
to `None` (in both dump transform states): this is exactly the "no field
lost to type coercion" caveat — an earlier alternative that could coerce the
dumped value would capture or reject it.  The `model` constructor records
that the declared field names are distinct, which Python guarantees because
`__annotations__` is a dict. -/
inductive CanonicalV : Ty → Val → Prop where
  | int (n : Int) : CanonicalV .intT (.vint n)
  | str (s : String) : CanonicalV .strT (.vstr s)
  | enum (c : Nat) (vals : List Int) (w : Int) (h : w ∈ vals) :
      CanonicalV (.enumT c vals) (.enumMember c w)
  | model (c : Nat) (fs : List (String × Ty)) (pp : String)
      (fvs : List (String × Val)) (hnodup : (fs.map Prod.fst).Nodup)
      (h : CanonicalFields fs fvs) :
      CanonicalV (.modelT c fs) (.node c pp fvs)
  | list (e : Ty) (vs : List Val) (h : CanonicalElems e vs) :
      CanonicalV (.listT e) (.vlist vs)
  | union (pre : List Ty) (a : Ty) (rest : List Ty) (v : Val)
      (hv : CanonicalV a v)
      (hpre : ∀ bt ∈ pre, ∀ (b : Bool) (path : String),
        parse_value bt (entryTrans b (asdictVal v)) path = .ok Option.none) :
      CanonicalV (.unionT (pre ++ a :: rest)) v

/-- Field lists aligned with their declared types: same names in the same
order, each value absent (`None`) or canonical. -/
inductive CanonicalFields : List (String × Ty) → List (String × Val) → Prop where
  | nil : CanonicalFields [] []
  | cons (name : String) (ty : Ty) (v : Val) (fs : List (String × Ty))
      (fvs : List (String × Val)) (hv : CanonicalOpt ty v)
      (h : CanonicalFields fs fvs) :
      CanonicalFields ((name, ty) :: fs) ((name, v) :: fvs)

/-- Sequence elements: each absent or canonical at the element type. -/
inductive CanonicalElems : Ty → List Val → Prop where
  | nil (e : Ty) : CanonicalElems e []
  | cons (e : Ty) (v : Val) (vs : List Val) (hv : CanonicalOpt e v)
      (h : CanonicalElems e vs) : CanonicalElems e (v :: vs)

/-- An attribute value: absent, or canonical for its declared type. -/
inductive CanonicalOpt : Ty → Val → Prop where
  | none (ty : Ty) : CanonicalOpt ty .none
  | some (ty : Ty) (v : Val) (h : CanonicalV ty v) : CanonicalOpt ty v
end

/-- First-match on union arms: if every earlier arm parses to `None` and the
chosen arm parses to a value, the scan returns that value. -/
theorem parseUnionArgs_first (pre : List Ty) (a : Ty) (rest : List Ty)
    (v : Val) (path : String) (w : Val)
    (hpre : ∀ b ∈ pre, parse_value b v path = .ok Option.none)
    (ha : parse_value a v path = .ok (some w)) :
    parseUnionArgs (pre ++ a :: rest) v path = .ok (some w) := by
  induction pre with
  | nil =>
      simp only [List.nil_append]
      rw [parseUnionArgs, ha]
      rfl
  | cons b pre' ih =>
      have hb : parse_value b v path = .ok Option.none := hpre b (by simp)
      simp only [List.cons_append, parseUnionArgs, hb]
      have := ih (fun x hx => hpre x (by simp [hx]))
      simpa [bind, Except.bind] using this

/-- A covering dump document may be replaced by any document that looks up
the same values at the declared field names. -/
theorem dictCoversB_mono (b : Bool) (D D' : List (String × Val)) :
    ∀ (fs : List (String × Ty)) (fvs : List (String × Val)),
      dictCoversB b D fs fvs →
      (∀ n ∈ fs.map Prod.fst, D'.lookup n = D.lookup n) →
      dictCoversB b D' fs fvs := by
  intro fs
  induction fs with
  | nil =>
      intro fvs h hagree
      cases fvs with
      | nil => exact h
      | cons _ _ => exact absurd h (by simp [dictCoversB])
  | cons fld fs' ih =>
      intro fvs h hagree
      obtain ⟨name, ty⟩ := fld
      cases fvs with
      | nil => exact absurd h (by simp [dictCoversB])
      | cons kv fvs' =>
          obtain ⟨n2, v⟩ := kv
          obtain ⟨h1, h2⟩ := h
          refine ⟨?_, ?_⟩
          · rw [hagree name (by simp)]
            exact h1
          · exact ih fvs' h2 (fun n hn => hagree n (by simp [hn]))

/-- The dumped document of a canonical field list covers it: each declared
field name looks up the dumped form of its attribute (using that the
declared names are distinct). -/
theorem dictCoversB_build (b : Bool) :
    ∀ (fs : List (String × Ty)) (fvs : List (String × Val)),
      CanonicalFields fs fvs → (fs.map Prod.fst).Nodup →
      dictCoversB b (mapVals (fun v => entryTrans b (asdictVal v)) fvs) fs fvs := by
  intro fs
  induction fs with
  | nil =>
      intro fvs h _
      cases h
      trivial
  | cons fld fs' ih =>
      intro fvs h hnodup
      obtain ⟨name, ty⟩ := fld
      cases h with
      | cons _ _ v _ fvs' hv hrest =>
          have hmap : ((name, ty) :: fs').map Prod.fst
              = name :: fs'.map Prod.fst := rfl
          rw [hmap] at hnodup
          have hcons := List.nodup_cons.mp hnodup
          have hnd' : (fs'.map Prod.fst).Nodup := hcons.2
          have hnotin : name ∉ fs'.map Prod.fst := hcons.1
          refine ⟨?_, ?_⟩
          · simp [mapVals, List.lookup]
          · refine dictCoversB_mono b
              (mapVals (fun v => entryTrans b (asdictVal v)) fvs') _ fs' fvs'
              (ih fvs' hrest hnd') ?_
            intro n hn
            have hne : n ≠ name := fun hh => hnotin (hh ▸ hn)
            have hbk : (n == name) = false := by
              simp [beq_eq_false_iff_ne]
              exact hne
            simp [mapVals, List.lookup, hbk]

theorem fieldEq_refl_int (n : Int) : fieldEq (.vint n) (.vint n) = true := by
  rw [fieldEq]; simp

theorem fieldEq_refl_str (s : String) : fieldEq (.vstr s) (.vstr s) = true := by
  rw [fieldEq]; simp

theorem fieldEq_refl_enum (c : Nat) (w : Int) :
    fieldEq (.enumMember c w) (.enumMember c w) = true := by
  rw [fieldEq]; simp

mutual
/-- Structural size of a type expression (termination measure for the
round-trip induction). -/
def tySize : Ty → Nat
  | .noneT | .intT | .strT | .enumT _ _ => 1
  | .modelT _ fs => 1 + tyFieldsSize fs
  | .unionT args => 1 + tyListSize args
  | .listT e => 1 + tySize e

/-- Structural size of a declared field list. -/
def tyFieldsSize : List (String × Ty) → Nat
  | [] => 0
  | (_, t) :: rest => 1 + tySize t + tyFieldsSize rest

/-- Structural size of a type list. -/
def tyListSize : List Ty → Nat
  | [] => 0
  | t :: rest => 1 + tySize t + tyListSize rest
end

theorem tyListSize_append (l1 l2 : List Ty) :
    tyListSize (l1 ++ l2) = tyListSize l1 + tyListSize l2 := by
  induction l1 with
  | nil => simp [tyListSize]
  | cons t rest ih =>
      simp only [List.cons_append, tyListSize, List.append_eq, ih]
      omega

mutual
/-- Re-parsing the dumped form of a canonical value (in either dump
transform state) succeeds with a value that is `==`-equal to the original. -/
theorem reparseV : ∀ (ty : Ty) (v : Val), CanonicalV ty v →
    ∀ (b : Bool) (path : String),
      ∃ w, parse_value ty (entryTrans b (asdictVal v)) path = .ok (some w)
        ∧ fieldEq w v = true
  | _, _, .int n, b, path => by
      refine ⟨.vint n, ?_, fieldEq_refl_int n⟩
      cases b <;>
        (show parse_value .intT (.vint n) path = .ok (some (.vint n));
         simp [parse_value, coerceInt, Except.map])
  | _, _, .str s, b, path => by
      refine ⟨.vstr s, ?_, fieldEq_refl_str s⟩
      cases b <;>
        (show parse_value .strT (.vstr s) path = .ok (some (.vstr (pyStr (.vstr s))));
         simp [parse_value])
  | _, _, .enum c vals w h, b, path => by
      refine ⟨.enumMember c w, ?_, fieldEq_refl_enum c w⟩
      cases b with
      | true =>
          show parse_value (.enumT c vals) (.vint w) path = _
          simp [parse_value, enumCoerce, h, Except.map]
      | false =>
          show parse_value (.enumT c vals) (.enumMember c w) path = _
          simp [parse_value, enumCoerce, h, Except.map]
  | _, _, .model c fs pp fvs hnodup hfields, b, path => by
      have hcov := dictCoversB_build b fs fvs hfields hnodup
      obtain ⟨flds, hload, heq⟩ := reparseFields fs fvs hfields b
        (mapVals (fun v => entryTrans b (asdictVal v)) fvs) path hcov
      refine ⟨.node c path flds, ?_, ?_⟩
      · have hval : entryTrans b (asdictVal (.node c pp fvs))
            = .dict (mapVals (fun v => entryTrans b (asdictVal v)) fvs) := by
          cases b with
          | true =>
              show normEntry (.dict (asdictFields fvs)) = _
              rw [normEntry, normEntries_mapVals, asdictFields_mapVals,
                mapVals_mapVals]
              rfl
          | false =>
              show Val.dict (asdictFields fvs) = _
              rw [asdictFields_mapVals]
              rfl
        have hpv : parse_value (.modelT c fs)
            (.dict (mapVals (fun v => entryTrans b (asdictVal v)) fvs)) path
            = (load c fs
                (.dict (mapVals (fun v => entryTrans b (asdictVal v)) fvs))
                path).map some := by
          simp [parse_value]
        rw [hval, hpv, load, hload]
        rfl
      · rw [fieldEq]
        simp [heq]
  | _, _, .list e vs h, b, path => by
      obtain ⟨ws, hl, heq⟩ := reparseElems e vs h b path 0
      refine ⟨.vlist ws, ?_, ?_⟩
      · have hval : entryTrans b (asdictVal (.vlist vs))
            = .vlist (vs.map (fun v => elemTrans b (asdictVal v))) := by
          cases b with
          | true =>
              show normEntry (.vlist (asdictElems vs)) = _
              rw [normEntry, normElems_map_elemNorm, asdictElems_map,
                List.map_map]
              rfl
          | false =>
              show Val.vlist (asdictElems vs) = _
              rw [asdictElems_map]
              rfl
        have hpv : parse_value (.listT e)
            (.vlist (vs.map (fun v => elemTrans b (asdictVal v)))) path
            = (parseListElems e (vs.map (fun v => elemTrans b (asdictVal v)))
                path 0).map (fun l => some (.vlist l)) := by
          simp [parse_value]
        rw [hval, hpv, hl]
        rfl
      · rw [fieldEq]
        exact heq
  | _, _, .union pre a rest v hv hpre, b, path => by
      obtain ⟨w, hw, heq⟩ := reparseV a v hv b path
      refine ⟨w, ?_, heq⟩
      rw [parse_value_unionT]
      exact parseUnionArgs_first pre a rest _ path w
        (fun bt hbt => hpre bt hbt b path) hw
termination_by ty v h b path => (tySize ty, 0)
decreasing_by
  all_goals simp_wf
  all_goals
    (apply Prod.Lex.left;
     simp only [tySize, tyFieldsSize, tyListSize, tyListSize_append];
     omega)

/-- Re-loading a dumped document that covers a canonical field list
reconstructs `==`-equal attributes. -/
theorem reparseFields : ∀ (fs : List (String × Ty))
    (fvs : List (String × Val)), CanonicalFields fs fvs →
    ∀ (b : Bool) (D : List (String × Val)) (p : String),
      dictCoversB b D fs fvs →
      ∃ flds, loadFields fs (.dict D) p = .ok flds
        ∧ fieldEqFields flds fvs = true
  | _, _, .nil, _, D, p, _ => by
      refine ⟨[], by rw [loadFields], by rw [fieldEqFields]⟩
  | _, _, .cons name ty v fs' fvs' hv hrest, b, D, p, hcov => by
      obtain ⟨hlook, hcov'⟩ := hcov
      obtain ⟨flds', hload', heq'⟩ := reparseFields fs' fvs' hrest b D p hcov'
      have hstep : ∃ r, parse_value ty (entryTrans b (asdictVal v))
          (p ++ "." ++ name) = .ok r ∧ fieldEq (r.getD .none) v = true := by
        cases hv with
        | none =>
            refine ⟨Option.none, ?_, by rw [Option.getD, fieldEq]⟩
            have hnv : entryTrans b (asdictVal Val.none) = Val.none := by
              cases b <;> rfl
            rw [hnv, parse_value_none]
        | some _ _ hcan =>
            obtain ⟨w, hw, heqw⟩ := reparseV ty v hcan b (p ++ "." ++ name)
            exact ⟨some w, hw, by rw [Option.getD]; exact heqw⟩
      obtain ⟨r, hr, heqr⟩ := hstep
      refine ⟨(name, r.getD .none) :: flds', ?_, ?_⟩
      · rw [loadFields, hlook]
        simp only [Option.getD_some]
        rw [hr, hload']
        rfl
      · rw [fieldEqFields]
        simp [heqr, heq']
termination_by fs fvs h b D p hcov => (tyFieldsSize fs, 0)
decreasing_by
  all_goals simp_wf
  all_goals
    (apply Prod.Lex.left;
     simp only [tySize, tyFieldsSize, tyListSize, tyListSize_append];
     omega)

/-- Re-parsing the dumped elements of a canonical sequence reconstructs
`==`-equal elements. -/
theorem reparseElems : ∀ (e : Ty) (vs : List Val), CanonicalElems e vs →
    ∀ (b : Bool) (p : String) (i : Nat),
      ∃ ws, parseListElems e (vs.map (fun v => elemTrans b (asdictVal v))) p i
          = .ok ws
        ∧ fieldEqElems ws vs = true
  | _, _, .nil e, _, p, i => by
      refine ⟨[], by simp only [List.map_nil]; rw [parseListElems],
        by rw [fieldEqElems]⟩
  | _, _, .cons e v vs' hv hrest, b, p, i => by
      obtain ⟨ws', hl', heq'⟩ := reparseElems e vs' hrest b p (i + 1)
      have hstep : ∃ r, parse_value e (elemTrans b (asdictVal v))
          (p ++ "." ++ toString i) = .ok r
            ∧ fieldEq (r.getD .none) v = true := by
        cases hv with
        | none =>
            refine ⟨Option.none, ?_, by rw [Option.getD, fieldEq]⟩
            have hnv : elemTrans b (asdictVal Val.none) = Val.none := by
              cases b <;> rfl
            rw [hnv, parse_value_none]
        | some _ _ hcan =>
            cases b with
            | false =>
                obtain ⟨w, hw, heqw⟩ := reparseV e v hcan false
                  (p ++ "." ++ toString i)
                exact ⟨some w, hw, by rw [Option.getD]; exact heqw⟩
            | true =>
                obtain ⟨b', hb'⟩ := elemNorm_eq_entryTrans (asdictVal v)
                obtain ⟨w, hw, heqw⟩ := reparseV e v hcan b'
                  (p ++ "." ++ toString i)
                refine ⟨some w, ?_, by rw [Option.getD]; exact heqw⟩
                show parse_value e (elemNorm (asdictVal v)) _ = _
                rw [hb']
                exact hw
      obtain ⟨r, hr, heqr⟩ := hstep
      refine ⟨(r.getD .none) :: ws', ?_, ?_⟩
      · simp only [List.map_cons]
        rw [parseListElems, hr]
        simp only [bind, Except.bind]
        rw [hl']
      · rw [fieldEqElems]
        simp [heqr, heq']
termination_by e vs h b p i => (tySize e, vs.length + 1)
decreasing_by
  all_goals simp_wf
  all_goals apply Prod.Lex.right
  all_goals (try simp)
  all_goals (try omega)
end

/-- C6: for every Node Tree whose attribute values are canonical for their
declared types — no field is lost to type coercion, which for variants means
no earlier-declared alternative captures the dumped value — re-loading the
dumped document reconstructs a tree that is `==`-equal to the original,
field for field (dataclass equality: class and every declared attribute;
`_parent_path` is not a dataclass field). -/
theorem c6_load_dump_roundtrip (cls : Nat) (fs : List (String × Ty))
    (pp : String) (fvs : List (String × Val))
    (h : CanonicalV (.modelT cls fs) (.node cls pp fvs)) :
    ∃ t', load cls fs (dump (.node cls pp fvs)) "root" = .ok t'
      ∧ fieldEq t' (.node cls pp fvs) = true := by
  obtain ⟨w, hw, heq⟩ := reparseV _ _ h true "root"
  have hdump : dump (.node cls pp fvs)
      = entryTrans true (asdictVal (.node cls pp fvs)) := by
    show (match asdictVal (.node cls pp fvs) with
      | .dict kvs => Val.dict (normEntries kvs)
      | w => w) = normEntry (asdictVal (.node cls pp fvs))
    rw [asdictVal]
    rw [normEntry]
  rw [hdump]
  have hpv : parse_value (.modelT cls fs)
      (entryTrans true (asdictVal (.node cls pp fvs))) "root"
      = (load cls fs (entryTrans true (asdictVal (.node cls pp fvs)))
          "root").map some := by
    rw [show entryTrans true (asdictVal (.node cls pp fvs))
      = Val.dict (normEntries (asdictFields fvs)) from rfl]
    simp [parse_value]
  rw [hpv] at hw
  cases hload : load cls fs (entryTrans true (asdictVal (.node cls pp fvs)))
      "root" with
  | error e =>
      rw [hload] at hw
      simp [Except.map] at hw
  | ok t' =>
      rw [hload] at hw
      simp only [Except.map, Except.ok.injEq, Option.some.injEq] at hw
      exact ⟨t', rfl, hw ▸ heq⟩

/-- The schema of the round-trip witness: every declared type shape. -/
def fsC6 : List (String × Ty) :=
  [("a", .intT), ("s", .strT), ("u", .unionT [.intT, .noneT]),
   ("xs", .listT .intT), ("e", .enumT 7 [3, 4]),
   ("m", .modelT 9 [("k", .strT)]), ("opt", .strT)]

/-- The tree of the round-trip witness. -/
def treeC6 : Val :=
  .node 5 "root"
    [("a", .vint 2), ("s", .vstr "hi"), ("u", .vint 9),
     ("xs", .vlist [.vint 1, .none]), ("e", .enumMember 7 3),
     ("m", .node 9 "root.m" [("k", .vstr "x")]), ("opt", .none)]

/-- C6, witness: the round trip applied to a concrete tree exercising every
declared type shape (scalar, variant, sequence with an absent element,
enumerated, nested record, absent field). -/
theorem c6_load_dump_roundtrip_witness :
    ∃ t', load 5 fsC6 (dump treeC6) "root" = .ok t'
      ∧ fieldEq t' treeC6 = true := by
  apply c6_load_dump_roundtrip
  refine CanonicalV.model 5 _ "root" _ (by decide) ?_
  refine CanonicalFields.cons _ _ _ _ _
    (CanonicalOpt.some _ _ (CanonicalV.int 2)) ?_
  refine CanonicalFields.cons _ _ _ _ _
    (CanonicalOpt.some _ _ (CanonicalV.str "hi")) ?_
  refine CanonicalFields.cons _ _ _ _ _
    (CanonicalOpt.some _ _ (CanonicalV.union [] .intT [.noneT] _
      (CanonicalV.int 9) (fun bt hbt => absurd hbt (by simp)))) ?_
  refine CanonicalFields.cons _ _ _ _ _
    (CanonicalOpt.some _ _ (CanonicalV.list .intT _
      (CanonicalElems.cons _ _ _ (CanonicalOpt.some _ _ (CanonicalV.int 1))
        (CanonicalElems.cons _ _ _ (CanonicalOpt.none _)
          (CanonicalElems.nil _))))) ?_
  refine CanonicalFields.cons _ _ _ _ _
    (CanonicalOpt.some _ _ (CanonicalV.enum 7 [3, 4] 3 (by simp))) ?_
  refine CanonicalFields.cons _ _ _ _ _
    (CanonicalOpt.some _ _ (CanonicalV.model 9 _ "root.m" _ (by simp)
      (CanonicalFields.cons _ _ _ _ _
        (CanonicalOpt.some _ _ (CanonicalV.str "x"))
        CanonicalFields.nil))) ?_
  refine CanonicalFields.cons _ _ _ _ _ (CanonicalOpt.none _) ?_
  exact CanonicalFields.nil
